import Mathlib

/-!
Verification development for the cenotium LLMCompiler core
(src/cenotium/compiler/output_parser.py and task_fetching.py).

The Python code is shallowly embedded: pure functions become Lean
functions on `List Char` / `Nat` / an explicit `Value` type modelling
the Python values produced by literal parsing, and the stateful
scheduler becomes explicit state passing.  External library behaviour
(Python's `re` module on the two fixed patterns, `str`/`repr`
stringification, `ast.literal_eval`) is modelled explicitly and
faithfully for the fragment of inputs the code manipulates; each such
model carries a doc comment naming the external function it stands for.
-/

namespace Cenotium

/-! ### Characters -/

/-- The left-brace character (written by code point to keep source plain). -/
def lbrace : Char := Char.ofNat 123

/-- The right-brace character. -/
def rbrace : Char := Char.ofNat 125

/-- The single-quote character. -/
def squote : Char := Char.ofNat 39

/-- The double-quote character. -/
def dquote : Char := Char.ofNat 34

/-- Numeric value of a decimal digit character. -/
def digitVal (c : Char) : Nat := c.toNat - 48

/-- Value of a list of decimal digit characters, most significant first.
Models Python `int(s)` on a digit string. -/
def digitsToNat (ds : List Char) : Nat :=
  ds.foldl (fun a c => a * 10 + digitVal c) 0

/-- Decimal digit characters of a natural number; models Python `str(n)`
for a nonnegative `int`. -/
def natDigits (n : Nat) : List Char :=
  if h : n < 10 then [Char.ofNat (48 + n)]
  else natDigits (n / 10) ++ [Char.ofNat (48 + n % 10)]
  termination_by n
  decreasing_by
    exact Nat.div_lt_self (by omega) (by omega)

/-- Decimal rendering of an integer; models Python `str(n)` for `int`. -/
def intDigits (n : Int) : List Char :=
  if n < 0 then '-' :: natDigits n.natAbs else natDigits n.natAbs

/-! ### The placeholder pattern

`ID_PATTERN = r"\$\x7b?(\d+)\x7d?"` appears in both
`output_parser.py` and `task_fetching.py`.  `tryMatch` models one
attempted match of that pattern at a given position, returning the
captured integer, the full matched text (`group(0)`), and the
remaining input.  `findMatches` models `re.findall` (left-to-right,
non-overlapping scan) composed with `int` on each capture, and `subst`
below models `re.sub`. -/

/-- Body of a placeholder match after the dollar sign (and after the
optional left brace when `br` is true): at least one digit, then an
optional right brace. -/
def tryBody (br : Bool) (r1 : List Char) : Option (Nat × List Char × List Char) :=
  if r1.takeWhile Char.isDigit = [] then none
  else
    match r1.dropWhile Char.isDigit with
    | c :: r3 =>
      if c = rbrace then
        some (digitsToNat (r1.takeWhile Char.isDigit),
          '$' :: ((if br then [lbrace] else []) ++ r1.takeWhile Char.isDigit ++ [rbrace]), r3)
      else
        some (digitsToNat (r1.takeWhile Char.isDigit),
          '$' :: ((if br then [lbrace] else []) ++ r1.takeWhile Char.isDigit), c :: r3)
    | [] =>
      some (digitsToNat (r1.takeWhile Char.isDigit),
        '$' :: ((if br then [lbrace] else []) ++ r1.takeWhile Char.isDigit), [])

/-- One attempted match of the placeholder pattern at the head of `l`. -/
def tryMatch : List Char → Option (Nat × List Char × List Char)
  | [] => none
  | c :: rest =>
    if c = '$' then
      if rest.head? = some lbrace then tryBody true rest.tail else tryBody false rest
    else none

theorem tryMatch_ne_dollar {c : Char} (rest : List Char) (h : c ≠ '$') :
    tryMatch (c :: rest) = none := by
  simp [tryMatch, h]

theorem tryBody_decomp {br : Bool} {r1 m rem : List Char} {k : Nat}
    (h : tryBody br r1 = some (k, m, rem)) :
    '$' :: ((if br then [lbrace] else []) ++ r1) = m ++ rem ∧ m ≠ [] := by
  unfold tryBody at h
  generalize hds : r1.takeWhile Char.isDigit = ds at h
  generalize hr2 : r1.dropWhile Char.isDigit = r2 at h
  have hsplit : r1 = ds ++ r2 := by
    rw [← hds, ← hr2, List.takeWhile_append_dropWhile]
  by_cases hdse : ds = []
  · simp [hdse] at h
  · simp only [if_neg hdse] at h
    rcases r2 with _ | ⟨c2, r3⟩
    · simp only [Option.some.injEq, Prod.mk.injEq] at h
      obtain ⟨-, hm, hrem⟩ := h
      subst hm
      subst hrem
      refine ⟨by simp [hsplit], by simp⟩
    · by_cases hc2 : c2 = rbrace
      · rw [hc2] at h
        dsimp only at h
        rw [if_pos rfl] at h
        simp only [Option.some.injEq, Prod.mk.injEq] at h
        obtain ⟨-, hm, hrem⟩ := h
        subst hm
        subst hrem
        refine ⟨by simp [hsplit, hc2], by simp⟩
      · simp only [if_neg hc2, Option.some.injEq, Prod.mk.injEq] at h
        obtain ⟨-, hm, hrem⟩ := h
        subst hm
        subst hrem
        refine ⟨by simp [hsplit], by simp⟩

theorem tryMatch_decomp {l m rem : List Char} {k : Nat}
    (h : tryMatch l = some (k, m, rem)) : l = m ++ rem ∧ m ≠ [] := by
  match l with
  | [] => exact absurd h (by simp [tryMatch])
  | c :: rest =>
    simp only [tryMatch] at h
    by_cases hc : c = '$'
    case neg => rw [if_neg hc] at h; cases h
    rw [if_pos hc] at h
    subst hc
    by_cases hb : rest.head? = some lbrace
    · rw [if_pos hb] at h
      obtain ⟨hd, hm⟩ := tryBody_decomp h
      refine ⟨?_, hm⟩
      have hrest : rest = lbrace :: rest.tail := by
        cases rest with
        | nil => simp at hb
        | cons a t =>
          simp only [List.head?_cons, Option.some.injEq] at hb
          simp [hb]
      rw [hrest]
      simpa using hd
    · rw [if_neg hb] at h
      obtain ⟨hd, hm⟩ := tryBody_decomp h
      exact ⟨by simpa using hd, hm⟩

theorem tryMatch_shrinks {l m rem : List Char} {k : Nat}
    (h : tryMatch l = some (k, m, rem)) : rem.length < l.length := by
  obtain ⟨hd, hm⟩ := tryMatch_decomp h
  have : 0 < m.length := List.length_pos.mpr hm
  rw [hd, List.length_append]
  omega

/-- Fuel-driven scan loop for `re.findall`; the fuel is structural so
that concrete scans compute inside the kernel.  With fuel at least the
input length the scan always completes. -/
def findMatchesGo : Nat → List Char → List Nat
  | 0, _ => []
  | _ + 1, [] => []
  | fuel + 1, c :: rest =>
    match tryMatch (c :: rest) with
    | some (k, _, rem) => k :: findMatchesGo fuel rem
    | none => findMatchesGo fuel rest

/-- Models `re.findall(ID_PATTERN, s)` followed by `int(...)` on each
captured group: the integers of all placeholder occurrences, in
left-to-right scan order. -/
def findMatches (l : List Char) : List Nat :=
  findMatchesGo l.length l

theorem findMatchesGo_congr :
    ∀ (f1 f2 : Nat) (l : List Char), l.length ≤ f1 → l.length ≤ f2 →
      findMatchesGo f1 l = findMatchesGo f2 l
  | 0, 0, _, _, _ => rfl
  | 0, _ + 1, l, h1, _ => by
    have : l = [] := List.length_eq_zero.mp (Nat.le_zero.mp h1)
    subst this
    rfl
  | _ + 1, 0, l, _, h2 => by
    have : l = [] := List.length_eq_zero.mp (Nat.le_zero.mp h2)
    subst this
    rfl
  | g1 + 1, g2 + 1, [], _, _ => rfl
  | g1 + 1, g2 + 1, c :: rest, h1, h2 => by
    show (match tryMatch (c :: rest) with
          | some (k, _, rem) => k :: findMatchesGo g1 rem
          | none => findMatchesGo g1 rest) =
        (match tryMatch (c :: rest) with
          | some (k, _, rem) => k :: findMatchesGo g2 rem
          | none => findMatchesGo g2 rest)
    cases hm : tryMatch (c :: rest) with
    | some v =>
      obtain ⟨k, m, rem⟩ := v
      dsimp only
      have hlt := tryMatch_shrinks hm
      simp only [List.length_cons] at h1 h2 hlt
      rw [findMatchesGo_congr g1 g2 rem (by omega) (by omega)]
    | none =>
      dsimp only
      simp only [List.length_cons] at h1 h2
      rw [findMatchesGo_congr g1 g2 rest (by omega) (by omega)]

theorem findMatches_nil : findMatches [] = [] := rfl

theorem findMatches_eq_some {c : Char} {rest m rem : List Char} {k : Nat}
    (h : tryMatch (c :: rest) = some (k, m, rem)) :
    findMatches (c :: rest) = k :: findMatches rem := by
  show findMatchesGo (rest.length + 1) (c :: rest) = _
  have hlt := tryMatch_shrinks h
  simp only [List.length_cons] at hlt
  show (match tryMatch (c :: rest) with
        | some (k, _, rem) => k :: findMatchesGo rest.length rem
        | none => findMatchesGo rest.length rest) = _
  rw [h]
  dsimp only
  show k :: findMatchesGo rest.length rem = k :: findMatchesGo rem.length rem
  rw [findMatchesGo_congr rest.length rem.length rem (by omega) (by omega)]

theorem findMatches_eq_none {c : Char} {rest : List Char}
    (h : tryMatch (c :: rest) = none) :
    findMatches (c :: rest) = findMatches rest := by
  show findMatchesGo (rest.length + 1) (c :: rest) = _
  show (match tryMatch (c :: rest) with
        | some (k, _, rem) => k :: findMatchesGo rest.length rem
        | none => findMatchesGo rest.length rest) = _
  rw [h]
  rfl

theorem findMatches_skip {c : Char} (rest : List Char) (h : c ≠ '$') :
    findMatches (c :: rest) = findMatches rest :=
  findMatches_eq_none (tryMatch_ne_dollar rest h)

/-- Scanning text with no dollar sign yields no matches and does not
interact with what follows. -/
theorem findMatches_no_dollar (a b : List Char) (h : '$' ∉ a) :
    findMatches (a ++ b) = findMatches b := by
  induction a with
  | nil => rfl
  | cons c a ih =>
    have hc : c ≠ '$' := fun hce => h (hce ▸ List.mem_cons_self c a)
    rw [List.cons_append, findMatches_skip _ hc]
    exact ih (fun hm => h (List.mem_cons_of_mem c hm))

/-! ### Values

Models the Python values that `_ast_parse` (via `ast.literal_eval`)
can place into a task's argument mapping, per the spec's `Value` union
(string, number, boolean, null, list, mapping). -/

inductive Value where
  | str (s : String)
  | int (n : Int)
  | bool (b : Bool)
  | none
  | list (vs : List Value)
  | dict (kvs : List (Value × Value))
  deriving Repr

/-- One character of a Python single/double-quoted string `repr`, with
delimiter `q`: backslash, the delimiter and common control characters
are escaped; other characters are kept.  (Python also escapes some
non-ASCII characters; any rendering that keeps dollar signs, digits and
braces fixed and otherwise emits backslash-led sequences is
observationally equal for the placeholder scan, so this model fixes the
ASCII behaviour.) -/
def escChar (q : Char) (c : Char) : List Char :=
  if c = '\\' then ['\\', '\\']
  else if c = q then ['\\', q]
  else if c = '\n' then ['\\', 'n']
  else if c = '\r' then ['\\', 'r']
  else if c = '\t' then ['\\', 't']
  else if c.toNat < 32 ∨ c.toNat = 127 then
    ['\\', 'x', Char.ofNat (48 + c.toNat / 16),
      Char.ofNat (if c.toNat % 16 < 10 then 48 + c.toNat % 16 else 87 + c.toNat % 16)]
  else [c]

/-- Delimiter chosen by Python `repr` for a string: single quote by
default, double quote when the content contains a single quote but no
double quote. -/
def pyQuote (s : List Char) : Char :=
  if squote ∈ s ∧ dquote ∉ s then dquote else squote

/-- Python `repr` of a string. -/
def pyReprStr (s : List Char) : List Char :=
  pyQuote s :: (s.flatMap (escChar (pyQuote s)) ++ [pyQuote s])

mutual

/-- Python `repr` of a value (the rendering used for elements inside
containers). -/
def pyRepr : Value → List Char
  | .str s => pyReprStr s.data
  | .int n => intDigits n
  | .bool b => if b then ['T', 'r', 'u', 'e'] else ['F', 'a', 'l', 's', 'e']
  | .none => ['N', 'o', 'n', 'e']
  | .list vs => '[' :: (pyReprList vs ++ [']'])
  | .dict kvs => lbrace :: (pyReprDict kvs ++ [rbrace])

/-- Comma-separated `repr`s of list elements. -/
def pyReprList : List Value → List Char
  | [] => []
  | [v] => pyRepr v
  | v :: vs => pyRepr v ++ ',' :: ' ' :: pyReprList vs

/-- Comma-separated `key: value` `repr`s of dict items. -/
def pyReprDict : List (Value × Value) → List Char
  | [] => []
  | [kv] => pyRepr kv.1 ++ ':' :: ' ' :: pyRepr kv.2
  | kv :: kvs => pyRepr kv.1 ++ ':' :: ' ' :: pyRepr kv.2 ++ ',' :: ' ' :: pyReprDict kvs

end

/-- Python `str` of a value: the string itself for strings, `repr`
otherwise (containers stringify their elements with `repr`). -/
def pyStr : Value → List Char
  | .str s => s.data
  | v => pyRepr v

/-! ### The dependency resolver

`_get_dependencies_from_graph` in output_parser.py. -/

/-- Insert into a strictly ascending list, keeping it strictly
ascending (no duplicates). -/
def insSorted (x : Nat) : List Nat → List Nat
  | [] => [x]
  | y :: ys =>
    if x < y then x :: y :: ys
    else if x = y then y :: ys
    else y :: insSorted x ys

/-- Models Python `sorted(list(set(l)))`: the strictly ascending list
of the distinct elements of `l`. -/
def sortedDedup (l : List Nat) : List Nat :=
  l.foldr insSorted []

/-- `_get_dependencies_from_graph(idx, tool_name, args)`: for `join`,
`range(1, idx)`; otherwise the sorted deduplicated placeholder ids
found by scanning `str(arg_value)` for every argument value. -/
def getDeps (idx : Nat) (toolName : String) (args : List (String × Value)) : List Nat :=
  if toolName = "join" then List.range' 1 (idx - 1)
  else sortedDedup ((args.map (fun kv => findMatches (pyStr kv.2))).flatten)

mutual

/-- Spec-side reading of the dependency contract: the placeholder ids
occurring in a value, collected structurally (string leaves scanned
directly, recursing through lists and mappings). -/
def specOccurs : Value → List Nat
  | .str s => findMatches s.data
  | .int _ => []
  | .bool _ => []
  | .none => []
  | .list vs => pyOccList vs
  | .dict kvs => pyOccDict kvs

/-- Structural placeholder occurrences of a list of values. -/
def pyOccList : List Value → List Nat
  | [] => []
  | v :: vs => specOccurs v ++ pyOccList vs

/-- Structural placeholder occurrences of dict items (keys and values). -/
def pyOccDict : List (Value × Value) → List Nat
  | [] => []
  | kv :: kvs => specOccurs kv.1 ++ specOccurs kv.2 ++ pyOccDict kvs

end

/-! ### Character class facts used by the stringification proofs -/

theorem char_eq_of_toNat {a b : Char} (h : a.toNat = b.toNat) : a = b :=
  Char.ext (UInt32.ext h)

theorem isDigit_iff_toNat {c : Char} :
    c.isDigit = true ↔ 48 ≤ c.toNat ∧ c.toNat ≤ 57 := by
  unfold Char.isDigit
  simp only [Bool.and_eq_true, decide_eq_true_eq]
  exact Iff.rfl

theorem toNat_ofNat_small {k : Nat} (h : k < 55296) : (Char.ofNat k).toNat = k := by
  unfold Char.ofNat
  rw [dif_pos (Or.inl h)]
  unfold Char.ofNatAux Char.toNat
  simp [UInt32.toNat, BitVec.toNat_ofNatLt]

/-- The abbreviation used throughout: the whole escaped string. -/
def flatEsc (q : Char) (s : List Char) : List Char := s.flatMap (escChar q)

theorem flatEsc_nil (q : Char) : flatEsc q [] = [] := rfl

theorem flatEsc_cons (q c : Char) (s : List Char) :
    flatEsc q (c :: s) = escChar q c ++ flatEsc q s := rfl

theorem quote_toNat {q : Char} (hq : q = squote ∨ q = dquote) :
    q.toNat = 39 ∨ q.toNat = 34 := by
  rcases hq with h | h <;> subst h
  · left
    decide
  · right
    decide

/-- Characters relevant to the placeholder pattern are never escaped. -/
theorem escChar_keep {q c : Char} (hq : q = squote ∨ q = dquote)
    (hc : c = '$' ∨ c.isDigit = true ∨ c = lbrace ∨ c = rbrace) :
    escChar q c = [c] := by
  have hn : c.toNat = 36 ∨ (48 ≤ c.toNat ∧ c.toNat ≤ 57) ∨ c.toNat = 123 ∨ c.toNat = 125 := by
    rcases hc with h | h | h | h
    · left
      rw [h]
      decide
    · right
      left
      exact isDigit_iff_toNat.mp h
    · right
      right
      left
      rw [h]
      decide
    · right
      right
      right
      rw [h]
      decide
  have hqn := quote_toNat hq
  have h1 : c ≠ '\\' := by
    intro he
    subst he
    revert hn
    decide
  have h2 : c ≠ q := by
    intro he
    subst he
    rcases hqn with h | h <;> rw [h] at hn <;> rcases hn with h' | h' | h' | h' <;> omega
  have h3 : c ≠ '\n' := by
    intro he
    subst he
    revert hn
    decide
  have h4 : c ≠ '\r' := by
    intro he
    subst he
    revert hn
    decide
  have h5 : c ≠ '\t' := by
    intro he
    subst he
    revert hn
    decide
  have h6 : ¬ (c.toNat < 32 ∨ c.toNat = 127) := by
    rcases hn with h' | h' | h' | h' <;> omega
  unfold escChar
  rw [if_neg h1, if_neg h2, if_neg h3, if_neg h4, if_neg h5, if_neg h6]

/-- Every escape output is either the character itself or a
backslash-led sequence. -/
theorem escChar_shape (q c : Char) :
    escChar q c = [c] ∨ ∃ t2, escChar q c = '\\' :: t2 := by
  unfold escChar
  split
  · next h =>
    subst h
    exact Or.inr ⟨['\\'], rfl⟩
  split
  · exact Or.inr ⟨_, rfl⟩
  split
  · exact Or.inr ⟨_, rfl⟩
  split
  · exact Or.inr ⟨_, rfl⟩
  split
  · exact Or.inr ⟨_, rfl⟩
  split
  · exact Or.inr ⟨_, rfl⟩
  · exact Or.inl rfl

/-- Escaping a non-dollar character never produces a dollar sign. -/
theorem escChar_no_dollar {q c : Char} (hq : q = squote ∨ q = dquote)
    (hc : c ≠ '$') : '$' ∉ escChar q c := by
  have hqd : q ≠ '$' := by
    intro he
    rcases quote_toNat hq with h | h <;> rw [he] at h <;> revert h <;> decide
  unfold escChar
  split
  · simp
  split
  · intro hmem
    simp only [List.mem_cons, List.not_mem_nil, or_false] at hmem
    rcases hmem with h | h
    · revert h
      decide
    · exact hqd h.symm
  split
  · simp
  split
  · simp
  split
  · simp
  split
  · intro hmem
    simp only [List.mem_cons, List.not_mem_nil, or_false] at hmem
    rcases hmem with h | h | h | h
    · revert h
      decide
    · revert h
      decide
    · have h48 : 48 + c.toNat / 16 < 55296 := by omega
      have h2 := toNat_ofNat_small h48
      rw [← h] at h2
      have hd : ('$').toNat = 36 := by decide
      omega
    · have hk : (if c.toNat % 16 < 10 then 48 + c.toNat % 16 else 87 + c.toNat % 16) < 55296 := by
        split <;> omega
      have h2 := toNat_ofNat_small hk
      rw [← h] at h2
      have hd : ('$').toNat = 36 := by decide
      revert h2
      split <;> omega
  · intro hmem
    simp only [List.mem_cons, List.not_mem_nil, or_false] at hmem
    exact hc hmem.symm

theorem flatEsc_no_dollar {q : Char} (hq : q = squote ∨ q = dquote)
    {s : List Char} (hs : '$' ∉ s) : '$' ∉ flatEsc q s := by
  induction s with
  | nil => simp [flatEsc_nil]
  | cons c s ih =>
    rw [flatEsc_cons]
    intro hmem
    rcases List.mem_append.mp hmem with h | h
    · exact escChar_no_dollar hq (fun he => hs (he ▸ List.mem_cons_self c s)) h
    · exact ih (fun hm => hs (List.mem_cons_of_mem c hm)) h

/-- A list whose head (if any) can neither continue a digit run nor
open a braced placeholder; the boundaries the stringification lemmas
place after a rendered piece all satisfy this. -/
def safeTail (t : List Char) : Prop :=
  ∀ x, t.head? = some x → x.isDigit = false ∧ x ≠ lbrace

theorem safeTail_nil : safeTail [] := by
  intro x hx
  cases hx

theorem safeTail_cons {c : Char} (hd : c.isDigit = false) (hb : c ≠ lbrace)
    (t : List Char) : safeTail (c :: t) := by
  intro x hx
  simp only [List.head?_cons, Option.some.injEq] at hx
  exact hx ▸ ⟨hd, hb⟩

/-- Digit runs pass through escaping unchanged, and stop where the
unescaped run stops. -/
theorem flatEsc_digit_split (q : Char) (hq : q = squote ∨ q = dquote)
    (l t : List Char) (ht : ∀ x, t.head? = some x → x.isDigit = false) :
    (flatEsc q l ++ t).takeWhile Char.isDigit = l.takeWhile Char.isDigit ∧
    (flatEsc q l ++ t).dropWhile Char.isDigit = flatEsc q (l.dropWhile Char.isDigit) ++ t := by
  induction l with
  | nil =>
    cases t with
    | nil => simp [flatEsc_nil]
    | cons x t' =>
      have hx := ht x (by simp)
      simp [flatEsc_nil, List.takeWhile_cons, List.dropWhile_cons, hx]
  | cons c l' ih =>
    by_cases hd : c.isDigit = true
    · have hk := escChar_keep hq (Or.inr (Or.inl hd))
      constructor
      · rw [flatEsc_cons, hk]
        simp only [List.cons_append, List.nil_append, List.takeWhile_cons, hd, if_true]
        rw [ih.1]
      · rw [flatEsc_cons, hk]
        simp only [List.cons_append, List.nil_append, List.dropWhile_cons, hd, if_true]
        rw [ih.2]
    · have hdf : c.isDigit = false := by
        revert hd
        cases c.isDigit <;> simp
      rcases escChar_shape q c with hk | ⟨t2, he⟩
      · constructor
        · rw [flatEsc_cons, hk]
          simp [List.takeWhile_cons, hdf]
        · rw [flatEsc_cons, hk]
          simp only [List.cons_append, List.nil_append, List.dropWhile_cons, hdf]
          simp only [Bool.false_eq_true, if_false, List.dropWhile_cons]
          rw [flatEsc_cons, hk]
          simp
      · have hbs : ('\\').isDigit = false := by decide
        constructor
        · rw [flatEsc_cons, he]
          simp [List.takeWhile_cons, hbs, hdf]
        · rw [flatEsc_cons, he]
          simp only [List.cons_append, List.dropWhile_cons, hbs, hdf]
          simp only [Bool.false_eq_true, if_false, List.dropWhile_cons]
          rw [flatEsc_cons, he]
          simp

/-! ### Characterizations of tryBody and tryMatch -/

theorem tryBody_none_of (br : Bool) {r1 : List Char}
    (h : r1.takeWhile Char.isDigit = []) : tryBody br r1 = none := by
  unfold tryBody
  rw [if_pos h]

theorem tryBody_of_drop_nil (br : Bool) {r1 : List Char}
    (hds : r1.takeWhile Char.isDigit ≠ []) (h : r1.dropWhile Char.isDigit = []) :
    tryBody br r1 = some (digitsToNat (r1.takeWhile Char.isDigit),
      '$' :: ((if br then [lbrace] else []) ++ r1.takeWhile Char.isDigit), []) := by
  unfold tryBody
  rw [if_neg hds, h]

theorem tryBody_of_drop_rb (br : Bool) {r1 r3 : List Char}
    (hds : r1.takeWhile Char.isDigit ≠ []) (h : r1.dropWhile Char.isDigit = rbrace :: r3) :
    tryBody br r1 = some (digitsToNat (r1.takeWhile Char.isDigit),
      '$' :: ((if br then [lbrace] else []) ++ r1.takeWhile Char.isDigit ++ [rbrace]), r3) := by
  unfold tryBody
  rw [if_neg hds, h]
  dsimp only
  rw [if_pos rfl]

theorem tryBody_of_drop_other (br : Bool) {r1 r3 : List Char} {c : Char}
    (hds : r1.takeWhile Char.isDigit ≠ []) (h : r1.dropWhile Char.isDigit = c :: r3)
    (hc : c ≠ rbrace) :
    tryBody br r1 = some (digitsToNat (r1.takeWhile Char.isDigit),
      '$' :: ((if br then [lbrace] else []) ++ r1.takeWhile Char.isDigit), c :: r3) := by
  unfold tryBody
  rw [if_neg hds, h]
  dsimp only
  rw [if_neg hc]

theorem tryMatch_dollar_lb {rest : List Char} (h : rest.head? = some lbrace) :
    tryMatch ('$' :: rest) = tryBody true rest.tail := by
  unfold tryMatch
  dsimp only
  rw [if_pos rfl, if_pos h]

theorem tryMatch_dollar_nlb {rest : List Char} (h : rest.head? ≠ some lbrace) :
    tryMatch ('$' :: rest) = tryBody false rest := by
  unfold tryMatch
  dsimp only
  rw [if_pos rfl, if_neg h]

/-- The digit body of a placeholder match commutes with escaping:
the escaped input either matches with the same captured id and an
escaped remainder, or (when the match runs to the end of the piece and
the boundary starts with a closing brace) with the boundary's tail. -/
theorem tryBody_esc (q : Char) (hq : q = squote ∨ q = dquote) (br : Bool)
    (r1 t : List Char) (ht : safeTail t) :
    (tryBody br r1 = none → tryBody br (flatEsc q r1 ++ t) = none) ∧
    (∀ k m rem, tryBody br r1 = some (k, m, rem) →
      ∃ m2 rem2, tryBody br (flatEsc q r1 ++ t) = some (k, m2, rem2) ∧
        (rem2 = flatEsc q rem ++ t ∨
          (rem = [] ∧ t.head? = some rbrace ∧ rem2 = t.tail))) := by
  obtain ⟨htake, hdrop⟩ :=
    flatEsc_digit_split q hq r1 t (fun x hx => (ht x hx).1)
  by_cases hds : r1.takeWhile Char.isDigit = []
  · constructor
    · intro _
      exact tryBody_none_of br (htake.trans hds)
    · intro k m rem hsome
      rw [tryBody_none_of br hds] at hsome
      cases hsome
  · constructor
    · intro hnone
      exfalso
      cases hrest : r1.dropWhile Char.isDigit with
      | nil =>
        rw [tryBody_of_drop_nil br hds hrest] at hnone
        cases hnone
      | cons c2 r3 =>
        by_cases hc2 : c2 = rbrace
        · rw [hc2] at hrest
          rw [tryBody_of_drop_rb br hds hrest] at hnone
          cases hnone
        · rw [tryBody_of_drop_other br hds hrest hc2] at hnone
          cases hnone
    · intro k m rem hsome
      have hds2 : (flatEsc q r1 ++ t).takeWhile Char.isDigit ≠ [] := by
        rw [htake]
        exact hds
      cases hrest : r1.dropWhile Char.isDigit with
      | nil =>
        rw [tryBody_of_drop_nil br hds hrest] at hsome
        simp only [Option.some.injEq, Prod.mk.injEq] at hsome
        obtain ⟨hk, -, hrem⟩ := hsome
        rw [hrest, flatEsc_nil, List.nil_append] at hdrop
        cases t with
        | nil =>
          have hres := tryBody_of_drop_nil br hds2 hdrop
          rw [htake, hk] at hres
          refine ⟨_, _, hres, Or.inl ?_⟩
          rw [← hrem, flatEsc_nil]
          simp
        | cons x t' =>
          by_cases hx : x = rbrace
          · subst hx
            have hres := tryBody_of_drop_rb br hds2 hdrop
            rw [htake, hk] at hres
            exact ⟨_, _, hres, Or.inr ⟨hrem.symm, by simp, by simp⟩⟩
          · have hres := tryBody_of_drop_other br hds2 hdrop hx
            rw [htake, hk] at hres
            refine ⟨_, _, hres, Or.inl ?_⟩
            rw [← hrem, flatEsc_nil]
            simp
      | cons c2 r3 =>
        by_cases hc2 : c2 = rbrace
        · rw [hc2] at hrest
          rw [tryBody_of_drop_rb br hds hrest] at hsome
          simp only [Option.some.injEq, Prod.mk.injEq] at hsome
          obtain ⟨hk, -, hrem⟩ := hsome
          rw [hrest] at hdrop
          rw [flatEsc_cons, escChar_keep hq (Or.inr (Or.inr (Or.inr rfl)))] at hdrop
          simp only [List.cons_append, List.nil_append] at hdrop
          have hres := tryBody_of_drop_rb br hds2 hdrop
          rw [htake, hk] at hres
          refine ⟨_, _, hres, Or.inl ?_⟩
          rw [← hrem]
        · rw [tryBody_of_drop_other br hds hrest hc2] at hsome
          simp only [Option.some.injEq, Prod.mk.injEq] at hsome
          obtain ⟨hk, -, hrem⟩ := hsome
          rw [hrest] at hdrop
          rcases escChar_shape q c2 with hkp | ⟨t2, he⟩
          · rw [flatEsc_cons, hkp] at hdrop
            simp only [List.cons_append, List.nil_append] at hdrop
            have hres := tryBody_of_drop_other br hds2 hdrop hc2
            rw [htake, hk] at hres
            refine ⟨_, _, hres, Or.inl ?_⟩
            rw [← hrem, flatEsc_cons, hkp]
            simp
          · rw [flatEsc_cons, he] at hdrop
            simp only [List.cons_append, List.nil_append] at hdrop
            have hbs : ('\\' : Char) ≠ rbrace := by decide
            have hres := tryBody_of_drop_other br hds2 hdrop hbs
            rw [htake, hk] at hres
            refine ⟨_, _, hres, Or.inl ?_⟩
            rw [← hrem, flatEsc_cons, he]
            simp

/-- The whole placeholder match commutes with escaping. -/
theorem tryMatch_esc (q : Char) (hq : q = squote ∨ q = dquote)
    (s' t : List Char) (ht : safeTail t) :
    (tryMatch ('$' :: s') = none → tryMatch ('$' :: (flatEsc q s' ++ t)) = none) ∧
    (∀ k m rem, tryMatch ('$' :: s') = some (k, m, rem) →
      ∃ m2 rem2, tryMatch ('$' :: (flatEsc q s' ++ t)) = some (k, m2, rem2) ∧
        (rem2 = flatEsc q rem ++ t ∨
          (rem = [] ∧ t.head? = some rbrace ∧ rem2 = t.tail))) := by
  cases s' with
  | nil =>
    rw [flatEsc_nil, List.nil_append]
    have hl : tryMatch ('$' :: ([] : List Char)) = none := by
      rw [tryMatch_dollar_nlb (by simp)]
      exact tryBody_none_of false rfl
    rw [hl]
    constructor
    · intro _
      cases t with
      | nil =>
        rw [tryMatch_dollar_nlb (by simp)]
        exact tryBody_none_of false rfl
      | cons x t' =>
        obtain ⟨hxd, hxb⟩ := ht x (by simp)
        rw [tryMatch_dollar_nlb (by simp [hxb])]
        apply tryBody_none_of
        rw [List.takeWhile_cons, hxd]
        simp
    · intro k m rem hsome
      cases hsome
  | cons c s'' =>
    by_cases hcl : c = lbrace
    · subst hcl
      rw [flatEsc_cons, escChar_keep hq (Or.inr (Or.inr (Or.inl rfl)))]
      simp only [List.cons_append, List.nil_append]
      rw [tryMatch_dollar_lb (by simp), tryMatch_dollar_lb (by simp)]
      simp only [List.tail_cons]
      exact tryBody_esc q hq true s'' t ht
    · rcases escChar_shape q c with hkp | ⟨t2, he⟩
      · rw [flatEsc_cons, hkp]
        simp only [List.cons_append, List.nil_append]
        rw [tryMatch_dollar_nlb (by simp [hcl]), tryMatch_dollar_nlb (by simp [hcl])]
        have := tryBody_esc q hq false (c :: s'') t ht
        rw [flatEsc_cons, hkp] at this
        simpa using this
      · have hcd : c.isDigit = false := by
          by_cases hd : c.isDigit = true
          · rw [escChar_keep hq (Or.inr (Or.inl hd))] at he
            cases he
            exact absurd hd (by decide)
          · revert hd
            cases c.isDigit <;> simp
        have hlnone : tryMatch ('$' :: c :: s'') = none := by
          rw [tryMatch_dollar_nlb (by simp [hcl])]
          apply tryBody_none_of
          rw [List.takeWhile_cons, hcd]
          simp
        rw [hlnone, flatEsc_cons, he]
        simp only [List.cons_append]
        constructor
        · intro _
          have hbl : ('\\' : Char) ≠ lbrace := by decide
          rw [tryMatch_dollar_nlb (by simp [hbl])]
          apply tryBody_none_of
          rw [List.takeWhile_cons]
          simp
        · intro k m rem hsome
          cases hsome

/-- Scanning an escaped string followed by a safe boundary finds
exactly the original string's matches and then the boundary's. -/
theorem findMatches_flatEsc (q : Char) (hq : q = squote ∨ q = dquote) :
    ∀ (s t : List Char), safeTail t →
      findMatches (flatEsc q s ++ t) = findMatches s ++ findMatches t
  | [], t, _ => by
    rw [flatEsc_nil, List.nil_append, findMatches_nil, List.nil_append]
  | c :: s', t, ht => by
    by_cases hc : c = '$'
    · subst hc
      rw [flatEsc_cons, escChar_keep hq (Or.inl rfl)]
      simp only [List.cons_append, List.nil_append]
      obtain ⟨hnone, hsome⟩ := tryMatch_esc q hq s' t ht
      cases hm : tryMatch ('$' :: s') with
      | none =>
        rw [findMatches_eq_none (hnone hm), findMatches_eq_none hm]
        exact findMatches_flatEsc q hq s' t ht
      | some v =>
        obtain ⟨k, m, rem⟩ := v
        obtain ⟨m2, rem2, hres, hdisj⟩ := hsome k m rem hm
        rw [findMatches_eq_some hres, findMatches_eq_some hm]
        rcases hdisj with hr | ⟨hnil, hhd, htl⟩
        · subst hr
          have hlt : rem.length < ('$' :: s').length := tryMatch_shrinks hm
          rw [findMatches_flatEsc q hq rem t ht]
          simp
        · subst hnil
          subst htl
          cases t with
          | nil => cases hhd
          | cons x t' =>
            simp only [List.head?_cons, Option.some.injEq] at hhd
            subst hhd
            have hrb : rbrace ≠ '$' := by decide
            rw [findMatches_skip t' hrb]
            simp [findMatches_nil]
    · rw [flatEsc_cons, List.append_assoc,
        findMatches_no_dollar _ _ (escChar_no_dollar hq hc), findMatches_skip _ hc]
      exact findMatches_flatEsc q hq s' t ht
  termination_by s _ _ => s.length
  decreasing_by
  all_goals simp_wf
  all_goals exact tryMatch_shrinks hm

/-! ### Matching through Python stringification -/

theorem pyQuote_cases (s : List Char) : pyQuote s = squote ∨ pyQuote s = dquote := by
  unfold pyQuote
  split
  · exact Or.inr rfl
  · exact Or.inl rfl

theorem natDigits_bounds : ∀ (n : Nat), ∀ c ∈ natDigits n, 48 ≤ c.toNat ∧ c.toNat ≤ 57 := by
  intro n
  induction n using Nat.strong_induction_on with
  | _ n ih =>
    intro c hc
    unfold natDigits at hc
    split at hc
    · next h =>
      simp only [List.mem_singleton] at hc
      subst hc
      rw [toNat_ofNat_small (by omega)]
      omega
    · next h =>
      rcases List.mem_append.mp hc with h2 | h2
      · exact ih (n / 10) (Nat.div_lt_self (by omega) (by omega)) c h2
      · simp only [List.mem_singleton] at h2
        subst h2
        rw [toNat_ofNat_small (by omega)]
        omega

theorem intDigits_no_dollar (n : Int) : '$' ∉ intDigits n := by
  have hnd : ∀ c ∈ natDigits n.natAbs, c ≠ '$' := by
    intro c hc he
    have hb := natDigits_bounds n.natAbs c hc
    rw [he] at hb
    revert hb
    decide
  unfold intDigits
  split
  · intro hmem
    rcases List.mem_cons.mp hmem with h | h
    · revert h
      decide
    · exact hnd _ h rfl
  · intro hmem
    exact hnd _ hmem rfl

mutual

/-- Scanning the `repr` of a value (followed by any boundary that
cannot extend a digit run or open a braced placeholder) finds exactly
the structural placeholder occurrences of the value. -/
theorem reprMatches : ∀ (v : Value) (t : List Char), safeTail t →
    findMatches (pyRepr v ++ t) = specOccurs v ++ findMatches t
  | .str s, t, ht => by
    have hq := pyQuote_cases s.data
    have hqd : pyQuote s.data ≠ '$' := by
      rcases hq with h | h <;> rw [h] <;> decide
    have hqdig : (pyQuote s.data).isDigit = false := by
      rcases hq with h | h <;> rw [h] <;> decide
    have hqlb : pyQuote s.data ≠ lbrace := by
      rcases hq with h | h <;> rw [h] <;> decide
    show findMatches (pyReprStr s.data ++ t) = specOccurs (.str s) ++ findMatches t
    unfold pyReprStr
    rw [List.cons_append, findMatches_skip _ hqd, List.append_assoc]
    have hflat : s.data.flatMap (escChar (pyQuote s.data)) = flatEsc (pyQuote s.data) s.data := rfl
    rw [hflat, List.singleton_append,
      findMatches_flatEsc _ hq s.data (pyQuote s.data :: t) (safeTail_cons hqdig hqlb t),
      findMatches_skip _ hqd]
    rfl
  | .int n, t, _ => by
    show findMatches (intDigits n ++ t) = specOccurs (.int n) ++ findMatches t
    rw [findMatches_no_dollar _ _ (intDigits_no_dollar n)]
    rfl
  | .bool b, t, _ => by
    cases b
    · show findMatches (['F', 'a', 'l', 's', 'e'] ++ t) = [] ++ findMatches t
      rw [findMatches_no_dollar _ _ (by decide), List.nil_append]
    · show findMatches (['T', 'r', 'u', 'e'] ++ t) = [] ++ findMatches t
      rw [findMatches_no_dollar _ _ (by decide), List.nil_append]
  | .none, t, _ => by
    show findMatches (['N', 'o', 'n', 'e'] ++ t) = [] ++ findMatches t
    rw [findMatches_no_dollar _ _ (by decide), List.nil_append]
  | .list vs, t, ht => by
    show findMatches (('[' :: (pyReprList vs ++ [']'])) ++ t) =
      specOccurs (.list vs) ++ findMatches t
    rw [List.cons_append, findMatches_skip _ (by decide), List.append_assoc,
      List.singleton_append,
      reprMatchesList vs (']' :: t) (safeTail_cons (by decide) (by decide) t),
      findMatches_skip _ (by decide)]
    rfl
  | .dict kvs, t, ht => by
    show findMatches ((lbrace :: (pyReprDict kvs ++ [rbrace])) ++ t) =
      specOccurs (.dict kvs) ++ findMatches t
    rw [List.cons_append, findMatches_skip _ (by decide), List.append_assoc,
      List.singleton_append,
      reprMatchesDict kvs (rbrace :: t) (safeTail_cons (by decide) (by decide) t),
      findMatches_skip _ (by decide)]
    rfl

/-- List bodies: comma-separated element `repr`s. -/
theorem reprMatchesList : ∀ (vs : List Value) (t : List Char), safeTail t →
    findMatches (pyReprList vs ++ t) = pyOccList vs ++ findMatches t
  | [], t, _ => by
    show findMatches ([] ++ t) = [] ++ findMatches t
    rw [List.nil_append, List.nil_append]
  | [v], t, ht => by
    show findMatches (pyRepr v ++ t) = (specOccurs v ++ []) ++ findMatches t
    rw [reprMatches v t ht, List.append_nil]
  | v :: v2 :: vs, t, ht => by
    show findMatches ((pyRepr v ++ ',' :: ' ' :: pyReprList (v2 :: vs)) ++ t) =
      (specOccurs v ++ pyOccList (v2 :: vs)) ++ findMatches t
    rw [List.append_assoc, List.cons_append, List.cons_append,
      reprMatches v _ (safeTail_cons (by decide) (by decide) _),
      findMatches_skip _ (by decide), findMatches_skip _ (by decide),
      reprMatchesList (v2 :: vs) t ht, List.append_assoc]

/-- Dict bodies: comma-separated `key: value` `repr`s. -/
theorem reprMatchesDict : ∀ (kvs : List (Value × Value)) (t : List Char), safeTail t →
    findMatches (pyReprDict kvs ++ t) = pyOccDict kvs ++ findMatches t
  | [], t, _ => by
    show findMatches ([] ++ t) = [] ++ findMatches t
    rw [List.nil_append, List.nil_append]
  | [(a, b)], t, ht => by
    show findMatches ((pyRepr a ++ ':' :: ' ' :: pyRepr b) ++ t) =
      (specOccurs a ++ specOccurs b ++ []) ++ findMatches t
    rw [List.append_assoc, List.cons_append, List.cons_append,
      reprMatches a _ (safeTail_cons (by decide) (by decide) _),
      findMatches_skip _ (by decide), findMatches_skip _ (by decide),
      reprMatches b t ht, List.append_nil, List.append_assoc]
  | (a, b) :: kv2 :: kvs, t, ht => by
    show findMatches ((pyRepr a ++ (':' :: ' ' :: pyRepr b) ++ ',' :: ' ' :: pyReprDict (kv2 :: kvs)) ++ t) =
      (specOccurs a ++ specOccurs b ++ pyOccDict (kv2 :: kvs)) ++ findMatches t
    rw [List.append_assoc, List.append_assoc, List.cons_append, List.cons_append,
      reprMatches a _ (safeTail_cons (by decide) (by decide) _),
      findMatches_skip _ (by decide), findMatches_skip _ (by decide),
      List.append_assoc, List.cons_append, List.cons_append,
      reprMatches b _ (safeTail_cons (by decide) (by decide) _),
      findMatches_skip _ (by decide), findMatches_skip _ (by decide),
      reprMatchesDict (kv2 :: kvs) t ht]
    simp [List.append_assoc]

end

/-- `str` of a value finds exactly its structural placeholder ids. -/
theorem pyStr_matches (v : Value) : findMatches (pyStr v) = specOccurs v := by
  cases v with
  | str s => rfl
  | int n =>
    have := reprMatches (.int n) [] safeTail_nil
    simpa [findMatches_nil] using this
  | bool b =>
    have := reprMatches (.bool b) [] safeTail_nil
    simpa [findMatches_nil] using this
  | none =>
    have := reprMatches .none [] safeTail_nil
    simpa [findMatches_nil] using this
  | list vs =>
    have := reprMatches (.list vs) [] safeTail_nil
    simpa [findMatches_nil] using this
  | dict kvs =>
    have := reprMatches (.dict kvs) [] safeTail_nil
    simpa [findMatches_nil] using this

/-! ### Sorted deduplication -/

theorem insSorted_head? (x : Nat) :
    ∀ (l : List Nat), (insSorted x l).head? = some x ∨ (insSorted x l).head? = l.head?
  | [] => Or.inl rfl
  | y :: ys => by
    unfold insSorted
    by_cases h1 : x < y
    · rw [if_pos h1]
      exact Or.inl rfl
    · rw [if_neg h1]
      by_cases h2 : x = y
      · rw [if_pos h2]
        exact Or.inr rfl
      · rw [if_neg h2]
        exact Or.inr rfl

theorem chain_insSorted (x : Nat) :
    ∀ (l : List Nat), List.Chain' (· < ·) l → List.Chain' (· < ·) (insSorted x l)
  | [], _ => by simp [insSorted]
  | y :: ys, h => by
    unfold insSorted
    by_cases h1 : x < y
    · rw [if_pos h1]
      exact List.chain'_cons.mpr ⟨h1, h⟩
    · rw [if_neg h1]
      by_cases h2 : x = y
      · rw [if_pos h2]
        exact h
      · rw [if_neg h2]
        have hyx : y < x := by omega
        obtain ⟨hhd, htl⟩ := List.chain'_cons'.mp h
        refine List.chain'_cons'.mpr ⟨?_, chain_insSorted x ys htl⟩
        intro b hb
        rcases insSorted_head? x ys with hh | hh
        · rw [hh] at hb
          simp only [Option.mem_def, Option.some.injEq] at hb
          omega
        · rw [hh] at hb
          exact hhd b hb

theorem mem_insSorted {x z : Nat} :
    ∀ {l : List Nat}, z ∈ insSorted x l ↔ z = x ∨ z ∈ l := by
  intro l
  induction l with
  | nil => simp [insSorted]
  | cons y ys ih =>
    unfold insSorted
    by_cases h1 : x < y
    · rw [if_pos h1]
      simp
    · rw [if_neg h1]
      by_cases h2 : x = y
      · rw [if_pos h2]
        subst h2
        simp only [List.mem_cons]
        constructor
        · intro h
          exact Or.inr h
        · intro h
          rcases h with h | h
          · exact Or.inl h
          · exact h
      · rw [if_neg h2]
        simp only [List.mem_cons, ih]
        tauto

theorem sortedDedup_chain (l : List Nat) : List.Chain' (· < ·) (sortedDedup l) := by
  induction l with
  | nil => simp [sortedDedup]
  | cons x l ih => exact chain_insSorted x _ ih

theorem mem_sortedDedup {z : Nat} : ∀ {l : List Nat}, z ∈ sortedDedup l ↔ z ∈ l := by
  intro l
  induction l with
  | nil => simp [sortedDedup]
  | cons x l ih =>
    show z ∈ insSorted x (sortedDedup l) ↔ _
    rw [mem_insSorted]
    simp [ih]

/-- Spec-side dependency list: sorted deduplicated structural
placeholder occurrences across the argument values. -/
def specDeps (args : List (String × Value)) : List Nat :=
  sortedDedup ((args.map (fun kv => specOccurs kv.2)).flatten)

/-! ### The observation table and argument resolution
(task_fetching.py). -/

/-- The shared observation table (`observations` in task_fetching.py):
a mapping from task id to result value, modelled as an association
list with Python dict semantics (assignment to an existing key
overwrites in place, a new key is appended). -/
abbrev ObsTable := List (Nat × Value)

/-- `observations.get(k)`. -/
def lookupObs : ObsTable → Nat → Option Value
  | [], _ => none
  | (i, v) :: rest, k => if i = k then some v else lookupObs rest k

/-- `observations[k] = v`. -/
def insertObs : ObsTable → Nat → Value → ObsTable
  | [], k, v => [(k, v)]
  | (i, w) :: rest, k, v =>
    if i = k then (i, v) :: rest else (i, w) :: insertObs rest k v

/-- Fuel-driven substitution loop for `re.sub` (structural fuel, as
with `findMatchesGo`). -/
def substGo (obs : ObsTable) : Nat → List Char → List Char
  | 0, _ => []
  | _ + 1, [] => []
  | fuel + 1, c :: rest =>
    match tryMatch (c :: rest) with
    | some (k, m, rem) =>
      (match lookupObs obs k with
       | some v => pyStr v
       | none => m) ++ substGo obs fuel rem
    | none => c :: substGo obs fuel rest

/-- Models `re.sub(ID_PATTERN, replace_match, arg)` from `_resolve_arg`:
each placeholder match is replaced by `str(observations.get(idx,
match.group(0)))` - the stringified observation when present, the
matched text itself when absent. -/
def subst (obs : ObsTable) (l : List Char) : List Char :=
  substGo obs l.length l

theorem substGo_congr (obs : ObsTable) :
    ∀ (f1 f2 : Nat) (l : List Char), l.length ≤ f1 → l.length ≤ f2 →
      substGo obs f1 l = substGo obs f2 l
  | 0, 0, _, _, _ => rfl
  | 0, _ + 1, l, h1, _ => by
    have : l = [] := List.length_eq_zero.mp (Nat.le_zero.mp h1)
    subst this
    rfl
  | _ + 1, 0, l, _, h2 => by
    have : l = [] := List.length_eq_zero.mp (Nat.le_zero.mp h2)
    subst this
    rfl
  | g1 + 1, g2 + 1, [], _, _ => rfl
  | g1 + 1, g2 + 1, c :: rest, h1, h2 => by
    show (match tryMatch (c :: rest) with
          | some (k, m, rem) =>
            (match lookupObs obs k with
             | some v => pyStr v
             | none => m) ++ substGo obs g1 rem
          | none => c :: substGo obs g1 rest) =
        (match tryMatch (c :: rest) with
          | some (k, m, rem) =>
            (match lookupObs obs k with
             | some v => pyStr v
             | none => m) ++ substGo obs g2 rem
          | none => c :: substGo obs g2 rest)
    cases hm : tryMatch (c :: rest) with
    | some v =>
      obtain ⟨k, m, rem⟩ := v
      dsimp only
      have hlt := tryMatch_shrinks hm
      simp only [List.length_cons] at h1 h2 hlt
      rw [substGo_congr obs g1 g2 rem (by omega) (by omega)]
    | none =>
      dsimp only
      simp only [List.length_cons] at h1 h2
      rw [substGo_congr obs g1 g2 rest (by omega) (by omega)]

theorem subst_nil (obs : ObsTable) : subst obs [] = [] := rfl

theorem subst_eq_some {obs : ObsTable} {c : Char} {rest m rem : List Char} {k : Nat}
    (h : tryMatch (c :: rest) = some (k, m, rem)) :
    subst obs (c :: rest) =
      (match lookupObs obs k with
       | some v => pyStr v
       | none => m) ++ subst obs rem := by
  have hlt := tryMatch_shrinks h
  simp only [List.length_cons] at hlt
  show (match tryMatch (c :: rest) with
        | some (k, m, rem) =>
          (match lookupObs obs k with
           | some v => pyStr v
           | none => m) ++ substGo obs rest.length rem
        | none => c :: substGo obs rest.length rest) = _
  rw [h]
  dsimp only
  show (match lookupObs obs k with
        | some v => pyStr v
        | none => m) ++ substGo obs rest.length rem = _ ++ substGo obs rem.length rem
  rw [substGo_congr obs rest.length rem.length rem (by omega) (by omega)]

theorem subst_eq_none {obs : ObsTable} {c : Char} {rest : List Char}
    (h : tryMatch (c :: rest) = none) :
    subst obs (c :: rest) = c :: subst obs rest := by
  show (match tryMatch (c :: rest) with
        | some (k, m, rem) =>
          (match lookupObs obs k with
           | some v => pyStr v
           | none => m) ++ substGo obs rest.length rem
        | none => c :: substGo obs rest.length rest) = _
  rw [h]
  rfl

mutual

/-- `_resolve_arg(arg, observations)`: strings get placeholder
substitution, lists recurse, everything else is returned unchanged. -/
def resolveArg : Value → ObsTable → Value
  | .str s, obs => .str (String.mk (subst obs s.data))
  | .list vs, obs => .list (resolveArgList vs obs)
  | .int n, _ => .int n
  | .bool b, _ => .bool b
  | .none, _ => .none
  | .dict kvs, _ => .dict kvs

/-- Elementwise resolution of a list argument. -/
def resolveArgList : List Value → ObsTable → List Value
  | [], _ => []
  | v :: vs, obs => resolveArg v obs :: resolveArgList vs obs

end

/-! ### The plan parser (output_parser.py) -/

/-- Python `\w` for the ASCII characters the plans contain: letters,
digits and underscore. -/
def isWordChar (c : Char) : Bool := c.isAlphanum || c = '_'

/-- Python `text.split(chr(10))`: split on newlines, keeping empty
segments, with a trailing empty segment after a final newline. -/
def splitNl : List Char → List (List Char)
  | [] => [[]]
  | c :: rest =>
    if c = '\n' then [] :: splitNl rest
    else
      match splitNl rest with
      | l :: ls => (c :: l) :: ls
      | [] => [[c]]

/-- The text strictly before the last closing parenthesis, when one
exists: the greedy `(.*)\)` group of the action pattern. -/
def lastCloseSplit (l : List Char) : Option (List Char) :=
  if l.contains ')' then
    some ((l.reverse.dropWhile (fun c => c != ')')).tail.reverse)
  else none

/-- Models `re.match(ACTION_PATTERN, line)` with
`ACTION_PATTERN = r"\n*(\d+)\. (\w+)\((.*)\)(\s*#\w+\n)?"`:
leading newlines, a digit run (the id), a literal dot and space, a
word run (the tool name), an opening parenthesis, then the greedy
group up to the last closing parenthesis.  Lines never contain a
newline, so the trailing comment group always matches empty and text
after the last closing parenthesis is ignored, as in Python. -/
def parseActionLine (line : List Char) : Option (Nat × String × String) :=
  if hds : ((line.dropWhile (· = '\n')).takeWhile Char.isDigit) = [] then none
  else
    match ((line.dropWhile (· = '\n')).drop
        ((line.dropWhile (· = '\n')).takeWhile Char.isDigit).length) with
    | '.' :: ' ' :: r1 =>
      if hw : (r1.takeWhile isWordChar) = [] then none
      else
        match r1.drop (r1.takeWhile isWordChar).length with
        | '(' :: r2 =>
          match lastCloseSplit r2 with
          | some inner =>
            some (digitsToNat ((line.dropWhile (· = '\n')).takeWhile Char.isDigit),
              String.mk (r1.takeWhile isWordChar), String.mk inner)
          | none => none
        | _ => none
    | _ => none

/-- Python `str.strip()` for the ASCII whitespace plans contain. -/
def stripWs (l : List Char) : List Char :=
  ((l.dropWhile Char.isWhitespace).reverse.dropWhile Char.isWhitespace).reverse

/-- Python `str.rstrip(c)`. -/
def rstripChar (c : Char) (l : List Char) : List Char :=
  (l.reverse.dropWhile (· = c)).reverse

/-- Common escape sequences inside a Python string literal; other
backslash pairs are kept as written. -/
def unescapePy : List Char → List Char
  | [] => []
  | '\\' :: c :: rest =>
    (if c = 'n' then ['\n']
     else if c = 't' then ['\t']
     else if c = 'r' then ['\r']
     else if c = '\\' then ['\\']
     else if c = squote then [squote]
     else if c = dquote then [dquote]
     else ['\\', c]) ++ unescapePy rest
  | c :: rest => c :: unescapePy rest

/-- An optionally signed decimal integer literal. -/
def parseIntChars (l : List Char) : Option Int :=
  match l with
  | '-' :: ds =>
    if ds ≠ [] ∧ ds.all Char.isDigit then some (-(digitsToNat ds : Int)) else none
  | ds =>
    if ds ≠ [] ∧ ds.all Char.isDigit then some ((digitsToNat ds : Int)) else none

/-- Models `_ast_parse`: `ast.literal_eval` with fallback to the raw
string on failure.  The model covers the scalar literals the plans
contain (quoted strings, integers, booleans, `None`); anything else
falls back to the raw string like the `except` branch.  (`literal_eval`
also parses container syntax; the dependency and resolution claims
quantify over argument `Value`s directly, so that case is not
exercised here.) -/
def astParse (s : String) : Value :=
  if stripWs s.data = "True".data then .bool true
  else if stripWs s.data = "False".data then .bool false
  else if stripWs s.data = "None".data then .none
  else
    match parseIntChars (stripWs s.data) with
    | some n => .int n
    | Option.none =>
      match stripWs s.data with
      | c :: rest =>
        if (c = squote ∨ c = dquote) ∧ rest ≠ [] ∧ rest.getLast? = some c then
          .str (String.mk (unescapePy rest.dropLast))
        else .str s
      | [] => .str s

/-- A registered capability (`BaseTool`): its name, its declared
parameter names in order (`tool.args.keys()`), and its invocation
function.  A tool that raises is modelled by an `Except.error` result
carrying the text of `repr(e)`. -/
structure Cap where
  name : String
  paramKeys : List String
  invoke : List (String × Value) → Except String Value

/-- `task["tool"]`: a raw string (the join sentinel) or a capability. -/
inductive ToolRef where
  | str (s : String)
  | cap (c : Cap)

/-- The Task record of output_parser.py. -/
structure ModelTask where
  idx : Nat
  tool : ToolRef
  args : List (String × Value)
  dependencies : List Nat
  thought : Option String

/-- Resolved display name of a task's tool, as the scheduler computes
it: the string itself for a sentinel, `.name` for a capability. -/
def toolNameOf (t : ModelTask) : String :=
  match t.tool with
  | .str s => s
  | .cap c => c.name

/-- Index of the first occurrence of `pat` in `l` (Python `str.index`
combined with the `in` check). -/
def firstIndexOfSub (l pat : List Char) : Option Nat :=
  if pat.isPrefixOf l then some 0
  else
    match l with
    | [] => none
    | _ :: t => (firstIndexOfSub t pat).map (· + 1)

/-- Python dict assignment on an association list. -/
def insertAssocStr (l : List (String × Value)) (k : String) (v : Value) :
    List (String × Value) :=
  match l with
  | [] => [(k, v)]
  | (k2, v2) :: rest =>
    if k2 = k then (k2, v) :: rest else (k2, v2) :: insertAssocStr rest k v

/-- Loop state of `_parse_llm_compiler_action_args`: the extracted
mapping, the current `tool_key`, whether `prev_idx` has been set, and
the remaining argument text. -/
structure ArgsAcc where
  extracted : List (String × Value)
  toolKey : String
  started : Bool
  rem : List Char

/-- One iteration of the key-scanning loop. -/
def argsStep (st : ArgsAcc) (key : String) : ArgsAcc :=
  match firstIndexOfSub st.rem (key.data ++ ['=']) with
  | none => st
  | some i =>
    { extracted :=
        if st.started then
          insertAssocStr st.extracted st.toolKey
            (astParse (String.mk (rstripChar ',' (stripWs (st.rem.take i)))))
        else st.extracted,
      toolKey := key, started := true,
      rem := st.rem.drop (i + key.length + 1) }

/-- `_parse_llm_compiler_action_args(args, tool)`: empty text gives no
arguments; a non-`BaseTool` tool (the join sentinel string) gives no
arguments; otherwise boundaries are located by scanning for each
declared `key=` in order. -/
def parseActionArgs (args : String) (tool : ToolRef) : List (String × Value) :=
  if args = "" then []
  else
    match tool with
    | .str _ => []
    | .cap c =>
      match c.paramKeys.foldl argsStep ⟨[], "", false, args.data⟩ with
      | st =>
        if st.started then
          insertAssocStr st.extracted st.toolKey
            (astParse (String.mk (rstripChar ')' (rstripChar ',' (stripWs st.rem)))))
        else []

/-- The structured parse failure (`OutputParserException`). -/
inductive ParseErr where
  | toolNotFound (name : String)

/-- `instantiate_task`: `join` becomes the sentinel without any
registry lookup; any other name is resolved against the registry and
an unknown name raises the structured parse error. -/
def instantiateTask (tools : List Cap) (idx : Nat) (toolName : String)
    (args : String) (thought : Option String) : Except ParseErr ModelTask :=
  match (if toolName = "join" then some (ToolRef.str "join")
         else (tools.find? (fun c => c.name = toolName)).map ToolRef.cap) with
  | Option.none => .error (.toolNotFound toolName)
  | some tool =>
    .ok { idx := idx, tool := tool, args := parseActionArgs args tool,
          dependencies := getDeps idx toolName (parseActionArgs args tool),
          thought := thought }

/-- The fixed prefix matched by `THOUGHT_PATTERN = r"Thought: ([^\n]*)"`. -/
def thoughtTag : List Char := "Thought: ".data

/-- `_parse_task(line, thought)`: a thought line sets the pending
thought; an action line instantiates a task and clears the thought;
any other line is ignored. -/
def parseTaskLine (tools : List Cap) (line : List Char) (thought : Option String) :
    Except ParseErr (Option ModelTask × Option String) :=
  if line.take 9 = thoughtTag then
    .ok (Option.none, some (String.mk (line.drop 9)))
  else
    match parseActionLine line with
    | some (idx, name, argstr) =>
      match instantiateTask tools idx name argstr thought with
      | .error e => .error e
      | .ok t => .ok (some t, Option.none)
    | Option.none => .ok (Option.none, thought)

/-- Sequential parse of complete lines, threading the thought like the
loop body of `ingest_token`: returns the yielded (task, thought-after)
pairs, the final local thought, and the first raised parse error. -/
def processLines (tools : List Cap) :
    List (List Char) → Option String →
      List (ModelTask × Option String) × Option String × Option ParseErr
  | [], th => ([], th, Option.none)
  | l :: rest, th =>
    match parseTaskLine tools l th with
    | .error e => ([], th, some e)
    | .ok (some t, th2) =>
      match processLines tools rest th2 with
      | (ps, thf, err) => ((t, th2) :: ps, thf, err)
    | .ok (Option.none, th2) => processLines tools rest th2

/-- `ingest_token(token, buffer, thought)`: append the token to the
buffer; when the token contains a newline, parse every complete line
of the joined buffer (the thought threads only locally, through the
parameter) and keep the trailing partial line as the new buffer.
Returns the yielded pairs, the new buffer, and the first error. -/
def ingestToken (tools : List Cap) (token : List Char)
    (buffer : List (List Char)) (th : Option String) :
    List (ModelTask × Option String) × List (List Char) × Option ParseErr :=
  if '\n' ∈ token then
    match processLines tools (splitNl ((buffer ++ [token]).flatten)).dropLast th with
    | (ps, _, err) => (ps, [(splitNl ((buffer ++ [token]).flatten)).getLastD []], err)
  else ([], buffer ++ [token], Option.none)

/-- `_transform`: feed each fragment to `ingest_token`, updating the
transform-level thought only from the yielded pairs (this is where the
generator drops a pending thought that was not followed by an action
line in the same call), then flush the remaining buffer as one final
line.  Returns the emitted tasks in order and the first error.  -/
def transformGo (tools : List Cap) :
    List (List Char) → List (List Char) → Option String → List ModelTask →
      List ModelTask × Option ParseErr
  | [], buffer, th, acc =>
    if buffer = [] then (acc, Option.none)
    else
      match parseTaskLine tools buffer.flatten th with
      | .error e => (acc, some e)
      | .ok (some t, _) => (acc ++ [t], Option.none)
      | .ok (Option.none, _) => (acc, Option.none)
  | f :: fs, buffer, th, acc =>
    match ingestToken tools f buffer th with
    | (ps, buf2, err) =>
      match err with
      | some e => (acc ++ ps.map (·.1), some e)
      | Option.none =>
        transformGo tools fs buf2
          (match ps.getLast? with
           | some p => p.2
           | Option.none => th)
          (acc ++ ps.map (·.1))

/-- Parsing a fragment sequence: `parse` / `stream` over `_transform`
with an initially empty buffer and no pending thought. -/
def transformFrags (tools : List Cap) (frags : List (List Char)) :
    List ModelTask × Option ParseErr :=
  transformGo tools frags [] Option.none []

/-! ### The scheduler (task_fetching.py)

The Python scheduler runs ready tasks inline in the consuming loop and
hands tasks with unmet dependencies to polling worker threads, then
waits for all workers.  The embedding is sequential: the consuming
pass runs ready tasks immediately and collects deferred ones, and the
deferred tasks are then retried in rounds until no round makes
progress - the outcome of the polling workers under the admissible
interleaving in which a deferred worker acquires its turn whenever its
dependencies are present.  Deferred tasks whose dependencies never
appear are returned as `stuck`; in Python their workers poll forever
and `wait(futures)` never returns, so a pass that returns is exactly a
run with `stuck = []`.  The `trace` field records, for specification
purposes, each executed task together with the observation table at
the moment its execution began and the value it wrote. -/

/-- A conversation message, as far as `_get_observations` reads it:
a `FunctionMessage` with an optional `idx` in `additional_kwargs` and
a content value, or anything else. -/
inductive Msg where
  | func (name : String) (idxval : Option Nat) (content : Value)
  | other

/-- `_get_observations(messages)`: walk the messages in reverse,
recording `content` under `int(idx)` for every function message that
carries an idx (so with duplicate ids the earliest message wins). -/
def getObservations (msgs : List Msg) : ObsTable :=
  msgs.reverse.foldl
    (fun acc m =>
      match m with
      | .func _ (some i) c => insertObs acc i c
      | _ => acc)
    []

/-- `_execute_task(task, observations)`: a string tool (the join
sentinel) is returned as-is without invoking anything; otherwise every
argument value is resolved against the observation table and the tool
is invoked, a raised error being converted to the `ERROR:` string.
(The resolution `try` branch cannot fail in the model because
`_resolve_arg` is total, matching the fact that `re.sub` and `dict
.get` do not raise on these inputs.) -/
def executeTask (t : ModelTask) (obs : ObsTable) : Value :=
  match t.tool with
  | .str s => .str s
  | .cap c =>
    match c.invoke (t.args.map (fun kv => (kv.1, resolveArg kv.2 obs))) with
    | .ok v => v
    | .error e => .str ("ERROR: Failed to execute " ++ c.name ++ ". " ++ e)

/-- One executed task: the task, the table at the start of its
execution, and the value written under its id. -/
structure TraceEntry where
  task : ModelTask
  obsBefore : ObsTable
  written : Value

/-- Scheduler state: the observation table, `task_names`, and the
execution trace. -/
structure SchedCore where
  obs : ObsTable
  names : List (Nat × String)
  trace : List TraceEntry

/-- Python dict assignment for the `task_names` map. -/
def insertName (l : List (Nat × String)) (k : Nat) (v : String) : List (Nat × String) :=
  match l with
  | [] => [(k, v)]
  | (i, w) :: rest => if i = k then (i, v) :: rest else (i, w) :: insertName rest k v

/-- `task_names.get(k)`. -/
def lookupName : List (Nat × String) → Nat → Option String
  | [], _ => none
  | (i, v) :: rest, k => if i = k then some v else lookupName rest k

/-- `schedule_task`: execute and write the observation under the
task's own id. -/
def runTask (st : SchedCore) (t : ModelTask) : SchedCore :=
  { obs := insertObs st.obs t.idx (executeTask t st.obs),
    names := st.names,
    trace := st.trace ++ [⟨t, st.obs, executeTask t st.obs⟩] }

/-- The dispatch guard of `schedule_tasks`:
`if deps and any(dep not in observations for dep in deps)`. -/
def taskDeferred (t : ModelTask) (obs : ObsTable) : Bool :=
  (!t.dependencies.isEmpty) && t.dependencies.any (fun d => (lookupObs obs d).isNone)

/-- The consuming loop of `schedule_tasks`: record the task's name,
then run it inline when its dependencies are all present, else defer
it. -/
def consumePhase (st : SchedCore) : List ModelTask → SchedCore × List ModelTask
  | [] => (st, [])
  | t :: rest =>
    if taskDeferred t st.obs then
      ((consumePhase { st with names := insertName st.names t.idx (toolNameOf t) } rest).1,
        t :: (consumePhase { st with names := insertName st.names t.idx (toolNameOf t) } rest).2)
    else
      consumePhase (runTask { st with names := insertName st.names t.idx (toolNameOf t) } t) rest

/-- One polling round over the deferred tasks, in order: each task
whose dependencies have appeared executes (`schedule_pending_task`
reaching `schedule_task`); the rest stay deferred.  The Bool reports
whether any task ran. -/
def pendingPass (st : SchedCore) : List ModelTask → SchedCore × List ModelTask × Bool
  | [] => (st, [], false)
  | t :: rest =>
    if taskDeferred t st.obs then
      ((pendingPass st rest).1, t :: (pendingPass st rest).2.1, (pendingPass st rest).2.2)
    else
      ((pendingPass (runTask st t) rest).1, (pendingPass (runTask st t) rest).2.1, true)

/-- Polling rounds until no deferred task can run; tasks still
deferred then are stuck (their Python workers would poll forever). -/
def pendingLoop : Nat → SchedCore → List ModelTask → SchedCore × List ModelTask
  | 0, st, pend => (st, pend)
  | fuel + 1, st, pend =>
    if (pendingPass st pend).2.2 then
      pendingLoop fuel (pendingPass st pend).1 (pendingPass st pend).2.1
    else ((pendingPass st pend).1, (pendingPass st pend).2.1)

/-- One returned result record (`FunctionMessage(name=..., content=...,
additional_kwargs=idx, tool_call_id=str(idx))`). -/
structure OutMsg where
  name : String
  content : String
  idx : Nat
  toolCallId : String

/-- The full result of a scheduling pass: the returned records plus
the final table, trace, names and stuck tasks kept for specification. -/
structure SchedResult where
  records : List OutMsg
  finalObs : ObsTable
  trace : List TraceEntry
  names : List (Nat × String)
  stuck : List ModelTask

/-- The scheduler core state and still-deferred tasks after the
consuming loop and the polling rounds. -/
def schedAfter (msgs : List Msg) (tasks : List ModelTask) : SchedCore × List ModelTask :=
  pendingLoop ((consumePhase ⟨getObservations msgs, [], []⟩ tasks).2.length + 1)
    (consumePhase ⟨getObservations msgs, [], []⟩ tasks).1
    (consumePhase ⟨getObservations msgs, [], []⟩ tasks).2

/-- `sorted(observations.keys() - originals)`. -/
def newKeysOf (msgs : List Msg) (tasks : List ModelTask) : List Nat :=
  sortedDedup ((((schedAfter msgs tasks).1.obs.map (·.1)).filter
    (fun k => !(((getObservations msgs).map (·.1)).contains k))))

/-- `schedule_tasks(scheduler_input)`: seed the table from the
messages, record `originals`, consume the task stream, drain the
deferred workers, and emit one record per new key in ascending id
order. -/
def scheduleTasks (msgs : List Msg) (tasks : List ModelTask) : SchedResult :=
  { records :=
      (newKeysOf msgs tasks).map
        (fun i =>
          { name := (lookupName (schedAfter msgs tasks).1.names i).getD "",
            content := String.mk (pyStr ((lookupObs (schedAfter msgs tasks).1.obs i).getD Value.none)),
            idx := i,
            toolCallId := String.mk (natDigits i) }),
    finalObs := (schedAfter msgs tasks).1.obs,
    trace := (schedAfter msgs tasks).1.trace,
    names := (schedAfter msgs tasks).1.names,
    stuck := (schedAfter msgs tasks).2 }

/-! ### Claim theorems: the dependency resolver -/

theorem parseActionArgs_sentinel (args : String) (s : String) :
    parseActionArgs args (.str s) = [] := by
  unfold parseActionArgs
  split
  · rfl
  · rfl

/-- C6: a `join` task with id `n` gets the sentinel tool without any
registry lookup (the result does not mention the registry), an empty
argument mapping whatever the argument text says, and dependency list
`range(1, n)`; membership in that list is exactly `1 ≤ k < n`. -/
theorem join_task_shape (tools : List Cap) (idx : Nat) (args : String)
    (th : Option String) :
    instantiateTask tools idx "join" args th =
      .ok ⟨idx, .str "join", [], List.range' 1 (idx - 1), th⟩ ∧
    (∀ k, k ∈ List.range' 1 (idx - 1) ↔ 1 ≤ k ∧ k < idx) := by
  constructor
  · unfold instantiateTask
    rw [if_pos rfl]
    dsimp only
    rw [parseActionArgs_sentinel]
    unfold getDeps
    rw [if_pos rfl]
  · intro k
    rw [List.mem_range'_1]
    omega

/-- C5: for a non-join task the computed dependency list equals the
sorted deduplicated list of placeholder ids occurring structurally
anywhere in the argument values (string leaves, nested lists,
mappings), and it is strictly ascending. -/
theorem dependency_resolver_spec (idx : Nat) (name : String)
    (args : List (String × Value)) (h : name ≠ "join") :
    getDeps idx name args = specDeps args ∧
    List.Chain' (· < ·) (getDeps idx name args) := by
  have hmain : getDeps idx name args = specDeps args := by
    unfold getDeps specDeps
    rw [if_neg h]
    congr 2
    apply List.map_congr_left
    intro kv _
    exact pyStr_matches kv.2
  exact ⟨hmain, by rw [hmain]; exact sortedDedup_chain _⟩

/-- A closed instance of the hypotheses and conclusion of
`dependency_resolver_spec`. -/
theorem dependency_resolver_spec_witness :
    getDeps 9 "search" [("a", .str "see $3 and $\x7b2\x7d"),
        ("b", .list [.str "$7", .int 4])] =
      specDeps [("a", .str "see $3 and $\x7b2\x7d"), ("b", .list [.str "$7", .int 4])] ∧
    List.Chain' (· < ·) (getDeps 9 "search" [("a", .str "see $3 and $\x7b2\x7d"),
        ("b", .list [.str "$7", .int 4])]) :=
  dependency_resolver_spec 9 "search" _ (by decide)

theorem subst_of_absent (obs : ObsTable) : ∀ (l : List Char),
    (∀ k ∈ findMatches l, (lookupObs obs k).isNone = true) → subst obs l = l
  | [], _ => subst_nil obs
  | c :: rest, h => by
    cases hm : tryMatch (c :: rest) with
    | none =>
      rw [subst_eq_none hm,
        subst_of_absent obs rest
          (fun k hk => h k (by rw [findMatches_eq_none hm]; exact hk))]
    | some v =>
      obtain ⟨k, m, rem⟩ := v
      rw [subst_eq_some hm]
      have hk : k ∈ findMatches (c :: rest) := by
        rw [findMatches_eq_some hm]
        exact List.mem_cons_self _ _
      have hnone : lookupObs obs k = Option.none :=
        Option.isNone_iff_eq_none.mp (h k hk)
      rw [hnone]
      rw [subst_of_absent obs rem
        (fun k2 hk2 => h k2 (by rw [findMatches_eq_some hm]; exact List.mem_cons_of_mem _ hk2))]
      exact ((tryMatch_decomp hm).1).symm
  termination_by l => l.length
  decreasing_by
  all_goals simp_wf
  all_goals exact tryMatch_shrinks hm

/-- C9: a string argument whose placeholders all name absent ids is
returned verbatim by `_resolve_arg` (no error is raised - resolution
is total), so `_execute_task` invokes the tool with the unsubstituted
placeholder text. -/
theorem resolve_absent_placeholder (s : String) (obs : ObsTable)
    (h : ∀ k ∈ findMatches s.data, (lookupObs obs k).isNone = true) :
    resolveArg (.str s) obs = .str s ∧
    ∀ (idx2 : Nat) (key : String) (c : Cap) (deps : List Nat) (th : Option String),
      executeTask ⟨idx2, .cap c, [(key, .str s)], deps, th⟩ obs =
        (match c.invoke [(key, .str s)] with
         | .ok v => v
         | .error e => .str ("ERROR: Failed to execute " ++ c.name ++ ". " ++ e)) := by
  have hsub : subst obs s.data = s.data := subst_of_absent obs s.data h
  have hres : resolveArg (.str s) obs = .str s := by
    show Value.str (String.mk (subst obs s.data)) = Value.str s
    rw [hsub]
  refine ⟨hres, ?_⟩
  intro idx2 key c deps th
  show (match c.invoke [(key, resolveArg (.str s) obs)] with
        | .ok v => v
        | .error e => .str ("ERROR: Failed to execute " ++ c.name ++ ". " ++ e)) = _
  rw [hres]

/-- A closed instance of `resolve_absent_placeholder`: id 9 is absent
from a table containing only id 2, so the echo tool receives the
placeholder text unchanged. -/
theorem resolve_absent_placeholder_witness :
    resolveArg (.str "use $9 now") [(2, .str "seen")] = .str "use $9 now" ∧
    ∀ (idx2 : Nat) (key : String) (c : Cap) (deps : List Nat) (th : Option String),
      executeTask ⟨idx2, .cap c, [(key, .str "use $9 now")], deps, th⟩ [(2, .str "seen")] =
        (match c.invoke [(key, .str "use $9 now")] with
         | .ok v => v
         | .error e => .str ("ERROR: Failed to execute " ++ c.name ++ ". " ++ e)) :=
  resolve_absent_placeholder "use $9 now" [(2, .str "seen")] (by decide)

/-- C10: a placeholder inside a mapping-valued argument is counted as
a dependency (extraction scans the stringified value), yet
`_resolve_arg` returns mappings unchanged, so it is never substituted. -/
theorem dict_placeholder_counted_not_substituted (idx : Nat) (name : String)
    (h : name ≠ "join") (pre post : List (String × Value)) (key : String)
    (kvs : List (Value × Value)) (k : Nat)
    (hk : k ∈ findMatches (pyStr (Value.dict kvs))) (obs : ObsTable) :
    k ∈ getDeps idx name (pre ++ (key, Value.dict kvs) :: post) ∧
    resolveArg (Value.dict kvs) obs = Value.dict kvs := by
  constructor
  · unfold getDeps
    rw [if_neg h]
    rw [mem_sortedDedup, List.mem_flatten]
    refine ⟨findMatches (pyStr (Value.dict kvs)), ?_, hk⟩
    exact List.mem_map.mpr ⟨(key, Value.dict kvs),
      List.mem_append_right _ (List.mem_cons_self _ _), rfl⟩
  · rfl

/-- A closed instance of `dict_placeholder_counted_not_substituted`:
the payload mapping references `$1`, which becomes a dependency of the
task but survives resolution unsubstituted even with id 1 present. -/
theorem dict_placeholder_witness :
    1 ∈ getDeps 3 "post" ([] ++ ("payload", Value.dict [(.str "q", .str "$1")]) :: []) ∧
    resolveArg (Value.dict [(.str "q", .str "$1")]) [(1, .str "ready")] =
      Value.dict [(.str "q", .str "$1")] :=
  dict_placeholder_counted_not_substituted 3 "post" (by decide) [] [] "payload"
    [(.str "q", .str "$1")] 1 (by decide) [(1, .str "ready")]

/-! ### Claim theorems: the plan parser -/

/-- A minimal registered capability for closed parser runs. -/
def searchCap : Cap :=
  { name := "search", paramKeys := ["query"],
    invoke := fun _ => Except.ok (Value.str "found") }

/-- C1 (refuted at this input): parsing the same plan text as one
fragment attaches the pending thought to the task, but splitting the
text at the line boundary loses the thought - `ingest_token` threads
the thought only locally and `_transform` learns of updates only
through yielded tasks, so a Thought line whose action arrives in a
later fragment is dropped.  Ids, tools and arguments still agree; the
thought annotation differs, so the Task sequences are not identical. -/
theorem fragment_boundary_loses_thought :
    (transformFrags [searchCap] ["Thought: x\n1. search(query=\"a\")\n".data]).1.map
        (fun t => (t.idx, toolNameOf t,
          t.args.map (fun kv => (kv.1, String.mk (pyStr kv.2))), t.thought)) =
      [(1, "search", [("query", "a")], some "x")] ∧
    (transformFrags [searchCap]
        ["Thought: x\n".data, "1. search(query=\"a\")\n".data]).1.map
        (fun t => (t.idx, toolNameOf t,
          t.args.map (fun kv => (kv.1, String.mk (pyStr kv.2))), t.thought)) =
      [(1, "search", [("query", "a")], Option.none)] := by
  constructor
  · decide
  · decide

/-- Each line followed by a newline, concatenated: the canonical text
of a plan given as a list of lines. -/
def unlines (ls : List (List Char)) : List Char :=
  (ls.map (· ++ ['\n'])).flatten

theorem unlines_cons (l : List Char) (ls : List (List Char)) :
    unlines (l :: ls) = l ++ '\n' :: unlines ls := by
  show (l ++ ['\n']) ++ unlines ls = _
  simp

theorem splitNl_cons (c : Char) (rest : List Char) :
    splitNl (c :: rest) =
      if c = '\n' then [] :: splitNl rest
      else
        match splitNl rest with
        | l :: ls => (c :: l) :: ls
        | [] => [[c]] := rfl

theorem splitNl_ne_nil : ∀ (l : List Char), splitNl l ≠ []
  | [] => by simp [splitNl]
  | c :: rest => by
    rw [splitNl_cons]
    by_cases hc : c = '\n'
    · rw [if_pos hc]
      simp
    · rw [if_neg hc]
      cases hsp : splitNl rest with
      | nil => simp
      | cons l ls => simp

theorem splitNl_append_newline (a b : List Char) (ha : '\n' ∉ a) :
    splitNl (a ++ '\n' :: b) = a :: splitNl b := by
  induction a with
  | nil =>
    rw [List.nil_append, splitNl_cons, if_pos rfl]
  | cons c a ih =>
    have hc : ¬ (c = '\n') := fun he => ha (he ▸ List.mem_cons_self c a)
    rw [List.cons_append, splitNl_cons, if_neg hc,
      ih (fun hm => ha (List.mem_cons_of_mem c hm))]

theorem splitNl_unlines_pre :
    ∀ (pre : List (List Char)), (∀ l ∈ pre, '\n' ∉ l) →
      ∀ (b : List Char), splitNl (unlines pre ++ b) = pre ++ splitNl b
  | [], _, b => by simp [unlines]
  | l :: ls, h, b => by
    rw [unlines_cons, List.append_assoc, List.cons_append,
      splitNl_append_newline l _ (h l (List.mem_cons_self l ls)),
      splitNl_unlines_pre ls (fun l2 h2 => h l2 (List.mem_cons_of_mem l h2)) b]
    rfl

theorem dropLast_append_left {α : Type} (xs : List α) :
    ∀ (ys : List α), ys ≠ [] → (xs ++ ys).dropLast = xs ++ ys.dropLast := by
  induction xs with
  | nil => intro ys _; rfl
  | cons x xs ih =>
    intro ys hys
    have hne : xs ++ ys ≠ [] := fun he => hys (List.append_eq_nil.mp he).2
    rw [List.cons_append, List.dropLast_cons_of_ne_nil hne, ih ys hys, List.cons_append]

theorem dropWhile_nl_of_not_mem {l : List Char} (h : '\n' ∉ l) :
    l.dropWhile (· = '\n') = l := by
  cases l with
  | nil => rfl
  | cons c rest =>
    rw [List.dropWhile_cons_of_neg]
    simp only [decide_eq_true_eq]
    exact fun he => h (he ▸ List.mem_cons_self c rest)

theorem parseActionLine_head_digit {bad : List Char}
    {r : Nat × String × String} (hnb : '\n' ∉ bad)
    (hact : parseActionLine bad = some r) :
    ∃ c rest2, bad = c :: rest2 ∧ c.isDigit = true := by
  have hdw : bad.dropWhile (· = '\n') = bad := dropWhile_nl_of_not_mem hnb
  unfold parseActionLine at hact
  rw [hdw] at hact
  split at hact
  · cases hact
  · next hds =>
    cases hb : bad with
    | nil =>
      rw [hb] at hds
      simp at hds
    | cons c rest2 =>
      refine ⟨c, rest2, rfl, ?_⟩
      by_cases hd : c.isDigit = true
      · exact hd
      · rw [hb, List.takeWhile_cons] at hds
        simp [hd] at hds

theorem parseTaskLine_unknown (tools : List Cap) (bad : List Char)
    (idx : Nat) (name args : String)
    (hact : parseActionLine bad = some (idx, name, args)) (hnb : '\n' ∉ bad)
    (hnj : name ≠ "join") (hreg : ∀ c ∈ tools, c.name ≠ name) (th : Option String) :
    parseTaskLine tools bad th = .error (.toolNotFound name) := by
  have hth : bad.take 9 ≠ thoughtTag := by
    obtain ⟨c, rest2, hb, hd⟩ := parseActionLine_head_digit hnb hact
    subst hb
    intro he
    rw [show (9 : Nat) = 8 + 1 from rfl, List.take_succ_cons] at he
    have hc : c = 'T' := (List.cons.injEq _ _ _ _ ▸ he).1
    rw [hc] at hd
    exact absurd hd (by decide)
  unfold parseTaskLine
  rw [if_neg hth, hact]
  dsimp only
  unfold instantiateTask
  rw [if_neg hnj]
  have hfind : tools.find? (fun c => c.name = name) = Option.none := by
    rw [List.find?_eq_none]
    intro c hc
    simp [hreg c hc]
  rw [hfind]
  rfl

theorem processLines_error_at (tools : List Cap) :
    ∀ (pre : List (List Char)) (th0 : Option String) (ps : List (ModelTask × Option String))
      (th1 : Option String)
      (hpre : processLines tools pre th0 = (ps, th1, Option.none))
      (bad : List Char) (rest2 : List (List Char)) (e : ParseErr)
      (hbad : parseTaskLine tools bad th1 = .error e),
      processLines tools (pre ++ bad :: rest2) th0 = (ps, th1, some e)
  | [], th0, ps, th1, hpre, bad, rest2, e, hbad => by
    simp only [processLines, Prod.mk.injEq] at hpre
    obtain ⟨hps, hth, -⟩ := hpre
    subst hps
    subst hth
    rw [List.nil_append]
    show (match parseTaskLine tools bad th0 with
          | .error e => ([], th0, some e)
          | .ok (some t, th2) =>
            match processLines tools rest2 th2 with
            | (ps, thf, err) => ((t, th2) :: ps, thf, err)
          | .ok (Option.none, th2) => processLines tools rest2 th2) = _
    rw [hbad]
  | l :: rest, th0, ps, th1, hpre, bad, rest2, e, hbad => by
    have hpre2 : (match parseTaskLine tools l th0 with
          | .error e2 => ([], th0, some e2)
          | .ok (some t, th2) =>
            match processLines tools rest th2 with
            | (ps2, thf, err) => ((t, th2) :: ps2, thf, err)
          | .ok (Option.none, th2) => processLines tools rest th2) = (ps, th1, Option.none) := hpre
    rw [List.cons_append]
    show (match parseTaskLine tools l th0 with
          | .error e2 => ([], th0, some e2)
          | .ok (some t, th2) =>
            match processLines tools (rest ++ bad :: rest2) th2 with
            | (ps2, thf, err) => ((t, th2) :: ps2, thf, err)
          | .ok (Option.none, th2) => processLines tools (rest ++ bad :: rest2) th2) = _
    cases hpl : parseTaskLine tools l th0 with
    | error e2 =>
      rw [hpl] at hpre2
      dsimp only at hpre2
      simp at hpre2
    | ok v =>
      obtain ⟨topt, th2⟩ := v
      cases topt with
      | some t =>
        rw [hpl] at hpre2
        dsimp only at hpre2 ⊢
        cases hrec : processLines tools rest th2 with
        | mk ps2 rest3 =>
          obtain ⟨thf, err⟩ := rest3
          rw [hrec] at hpre2
          dsimp only at hpre2
          simp only [Prod.mk.injEq] at hpre2
          obtain ⟨hps, hth, herr⟩ := hpre2
          rw [processLines_error_at tools rest th2 ps2 th1
            (by rw [hrec, hth, herr]) bad rest2 e hbad]
          rw [hps]
      | none =>
        rw [hpl] at hpre2
        dsimp only at hpre2 ⊢
        exact processLines_error_at tools rest th2 ps th1 hpre2 bad rest2 e hbad

/-- C7: an action line naming a tool that is neither `join` nor
registered makes the whole parse fail with the structured
`OutputParserException`: the transform returns exactly the tasks of
the lines before the offending one together with the error, and
nothing from the offending line onward is emitted, whatever follows. -/
theorem unknown_tool_aborts_parse (tools : List Cap)
    (pre post : List (List Char)) (bad : List Char)
    (hpre : ∀ l ∈ pre, '\n' ∉ l) (hbad : '\n' ∉ bad)
    (idx : Nat) (name args : String)
    (hact : parseActionLine bad = some (idx, name, args))
    (hnj : name ≠ "join") (hreg : ∀ c ∈ tools, c.name ≠ name)
    (ps : List (ModelTask × Option String)) (th1 : Option String)
    (hok : processLines tools pre Option.none = (ps, th1, Option.none)) :
    transformFrags tools [unlines (pre ++ bad :: post)] =
      (ps.map (·.1), some (.toolNotFound name)) := by
  have hnl : '\n' ∈ unlines (pre ++ bad :: post) := by
    have : unlines (pre ++ bad :: post) =
        unlines pre ++ (bad ++ '\n' :: unlines post) := by
      unfold unlines
      rw [List.map_append, List.flatten_append, List.map_cons, List.flatten_cons]
      simp
    rw [this]
    simp
  have hsplit : splitNl (([] ++ [unlines (pre ++ bad :: post)] : List (List Char)).flatten) =
      pre ++ bad :: splitNl (unlines post) := by
    have h1 : (([] ++ [unlines (pre ++ bad :: post)] : List (List Char))).flatten =
        unlines (pre ++ [bad]) ++ unlines post := by
      unfold unlines
      simp
    rw [h1, splitNl_unlines_pre (pre ++ [bad])
      (by
        intro l hl
        rcases List.mem_append.mp hl with h | h
        · exact hpre l h
        · simp only [List.mem_singleton] at h
          subst h
          exact hbad)]
    simp
  show transformGo tools [unlines (pre ++ bad :: post)] [] Option.none [] = _
  show (match ingestToken tools (unlines (pre ++ bad :: post)) [] Option.none with
        | (ps2, buf2, err) =>
          match err with
          | some e => ([] ++ ps2.map Prod.fst, some e)
          | Option.none =>
            transformGo tools [] buf2
              (match ps2.getLast? with
               | some p => p.2
               | Option.none => Option.none)
              ([] ++ ps2.map Prod.fst)) = _
  unfold ingestToken
  rw [if_pos hnl, hsplit]
  have hdl : (pre ++ bad :: splitNl (unlines post)).dropLast =
      pre ++ bad :: (splitNl (unlines post)).dropLast := by
    rw [show (pre ++ bad :: splitNl (unlines post)) = (pre ++ [bad]) ++ splitNl (unlines post) by simp,
      dropLast_append_left _ _ (splitNl_ne_nil _)]
    simp
  rw [hdl]
  rw [processLines_error_at tools pre Option.none ps th1 hok bad
    (splitNl (unlines post)).dropLast (.toolNotFound name)
    (parseTaskLine_unknown tools bad idx name args hact hbad hnj hreg th1)]
  rfl

/-- A closed instance of `unknown_tool_aborts_parse`: the plan names
the unregistered tool `foo`, so the parse fails with the structured
error and emits no task. -/
theorem unknown_tool_aborts_parse_witness :
    transformFrags [searchCap] [unlines ([] ++ "2. foo()".data :: ["3. search(query=\"b\")".data])] =
      ([], some (.toolNotFound "foo")) := by
  have h := unknown_tool_aborts_parse [searchCap] [] ["3. search(query=\"b\")".data]
    "2. foo()".data (by intro l hl; cases hl) (by decide) 2 "foo" ""
    (by decide)
    (by decide)
    (by
      intro c hc
      simp only [List.mem_singleton] at hc
      subst hc
      decide)
    [] Option.none rfl
  simpa using h

/-! ### Claim theorems: the scheduler -/

theorem lookupObs_insert_self (obs : ObsTable) (k : Nat) (v : Value) :
    lookupObs (insertObs obs k v) k = some v := by
  induction obs with
  | nil => simp [insertObs, lookupObs]
  | cons p rest ih =>
    obtain ⟨i, w⟩ := p
    show lookupObs (if i = k then (i, v) :: rest else (i, w) :: insertObs rest k v) k = some v
    by_cases hik : i = k
    · rw [if_pos hik]
      show (if i = k then some v else lookupObs rest k) = some v
      rw [if_pos hik]
    · rw [if_neg hik]
      show (if i = k then some w else lookupObs (insertObs rest k v) k) = some v
      rw [if_neg hik]
      exact ih

theorem lookupObs_insert_ne (obs : ObsTable) {k k2 : Nat} (v : Value) (h : k2 ≠ k) :
    lookupObs (insertObs obs k v) k2 = lookupObs obs k2 := by
  induction obs with
  | nil =>
    show (if k = k2 then some v else Option.none) = Option.none
    rw [if_neg (fun he => h he.symm)]
  | cons p rest ih =>
    obtain ⟨i, w⟩ := p
    show lookupObs (if i = k then (i, v) :: rest else (i, w) :: insertObs rest k v) k2 = _
    by_cases hik : i = k
    · subst hik
      rw [if_pos rfl]
      show (if i = k2 then some v else lookupObs rest k2) = (if i = k2 then some w else lookupObs rest k2)
      rw [if_neg (fun he => h he.symm), if_neg (fun he => h he.symm)]
    · rw [if_neg hik]
      show (if i = k2 then some w else lookupObs (insertObs rest k v) k2) =
        (if i = k2 then some w else lookupObs rest k2)
      by_cases hik2 : i = k2
      · rw [if_pos hik2, if_pos hik2]
      · rw [if_neg hik2, if_neg hik2, ih]

theorem lookupObs_insert_mono (obs : ObsTable) {k2 : Nat} (k : Nat) (v : Value)
    (h : (lookupObs obs k2).isSome = true) :
    (lookupObs (insertObs obs k v) k2).isSome = true := by
  by_cases he : k2 = k
  · subst he
    rw [lookupObs_insert_self]
    rfl
  · rw [lookupObs_insert_ne obs v he]
    exact h

theorem deps_present_of_not_deferred {t : ModelTask} {obs : ObsTable}
    (h : taskDeferred t obs = false) :
    ∀ d ∈ t.dependencies, (lookupObs obs d).isSome = true := by
  intro d hd
  unfold taskDeferred at h
  rcases Bool.and_eq_false_iff.mp h with h1 | h1
  · have h2 : t.dependencies.isEmpty = true := by
      revert h1
      cases t.dependencies.isEmpty <;> simp
    rw [List.isEmpty_iff.mp h2] at hd
    cases hd
  · have := List.any_eq_false.mp h1 d hd
    revert this
    cases hlk : lookupObs obs d with
    | some v => simp
    | none => simp

theorem not_deferred_of_deps_present {t : ModelTask} {obs : ObsTable}
    (h : ∀ d ∈ t.dependencies, (lookupObs obs d).isSome = true) :
    taskDeferred t obs = false := by
  unfold taskDeferred
  apply Bool.and_eq_false_iff.mpr
  right
  apply List.any_eq_false.mpr
  intro d hd
  have hs := h d hd
  cases hlk : lookupObs obs d with
  | some v => simp
  | none =>
    rw [hlk] at hs
    simp at hs

/-- Every executed task saw all its dependencies in the table at the
moment its execution began. -/
def TraceDeps (st : SchedCore) : Prop :=
  ∀ e ∈ st.trace, ∀ d ∈ e.task.dependencies, (lookupObs e.obsBefore d).isSome = true

theorem runTask_traceDeps {st : SchedCore} {t : ModelTask}
    (hst : TraceDeps st) (hready : taskDeferred t st.obs = false) :
    TraceDeps (runTask st t) := by
  intro e he
  rcases List.mem_append.mp he with h | h
  · exact hst e h
  · simp only [List.mem_singleton] at h
    subst h
    exact deps_present_of_not_deferred hready

theorem consumePhase_traceDeps :
    ∀ (ts : List ModelTask) (st : SchedCore), TraceDeps st →
      TraceDeps (consumePhase st ts).1
  | [], _, h => h
  | t :: rest, st, h => by
    simp only [consumePhase]
    by_cases hdef : taskDeferred t st.obs = true
    · rw [if_pos hdef]
      exact consumePhase_traceDeps rest _ h
    · rw [if_neg hdef]
      have hready : taskDeferred t st.obs = false := by
        revert hdef
        cases taskDeferred t st.obs <;> simp
      exact consumePhase_traceDeps rest _ (runTask_traceDeps h hready)

theorem pendingPass_traceDeps :
    ∀ (pend : List ModelTask) (st : SchedCore), TraceDeps st →
      TraceDeps (pendingPass st pend).1
  | [], _, h => h
  | t :: rest, st, h => by
    simp only [pendingPass]
    by_cases hdef : taskDeferred t st.obs = true
    · rw [if_pos hdef]
      exact pendingPass_traceDeps rest _ h
    · rw [if_neg hdef]
      have hready : taskDeferred t st.obs = false := by
        revert hdef
        cases taskDeferred t st.obs <;> simp
      exact pendingPass_traceDeps rest _ (runTask_traceDeps h hready)

theorem pendingLoop_traceDeps :
    ∀ (fuel : Nat) (st : SchedCore) (pend : List ModelTask), TraceDeps st →
      TraceDeps (pendingLoop fuel st pend).1
  | 0, _, _, h => h
  | fuel + 1, st, pend, h => by
    simp only [pendingLoop]
    by_cases hp : (pendingPass st pend).2.2 = true
    · rw [if_pos hp]
      exact pendingLoop_traceDeps fuel _ _ (pendingPass_traceDeps pend st h)
    · rw [if_neg hp]
      exact pendingPass_traceDeps pend st h

/-- C3: no task begins execution before every id in its dependency set
is present in the observation table - in every scheduling pass, each
trace entry's dependency ids are keys of the table recorded at the
start of that task's execution (ready tasks run inline, deferred tasks
re-check until their dependencies are all present). -/
theorem no_early_execution (msgs : List Msg) (tasks : List ModelTask) :
    ∀ e ∈ (scheduleTasks msgs tasks).trace, ∀ d ∈ e.task.dependencies,
      (lookupObs e.obsBefore d).isSome = true := by
  have : TraceDeps (schedAfter msgs tasks).1 := by
    unfold schedAfter
    apply pendingLoop_traceDeps
    apply consumePhase_traceDeps
    intro e he
    cases he
  exact this

theorem consumePhase_obs_mono :
    ∀ (ts : List ModelTask) (st : SchedCore) (k : Nat),
      (lookupObs st.obs k).isSome = true →
      (lookupObs (consumePhase st ts).1.obs k).isSome = true
  | [], _, _, h => h
  | t :: rest, st, k, h => by
    simp only [consumePhase]
    by_cases hdef : taskDeferred t st.obs = true
    · rw [if_pos hdef]
      exact consumePhase_obs_mono rest _ k h
    · rw [if_neg hdef]
      exact consumePhase_obs_mono rest _ k (lookupObs_insert_mono _ _ _ h)

theorem pendingPass_obs_mono :
    ∀ (pend : List ModelTask) (st : SchedCore) (k : Nat),
      (lookupObs st.obs k).isSome = true →
      (lookupObs (pendingPass st pend).1.obs k).isSome = true
  | [], _, _, h => h
  | t :: rest, st, k, h => by
    simp only [pendingPass]
    by_cases hdef : taskDeferred t st.obs = true
    · rw [if_pos hdef]
      exact pendingPass_obs_mono rest _ k h
    · rw [if_neg hdef]
      exact pendingPass_obs_mono rest _ k (lookupObs_insert_mono _ _ _ h)

theorem pendingLoop_obs_mono :
    ∀ (fuel : Nat) (st : SchedCore) (pend : List ModelTask) (k : Nat),
      (lookupObs st.obs k).isSome = true →
      (lookupObs (pendingLoop fuel st pend).1.obs k).isSome = true
  | 0, _, _, _, h => h
  | fuel + 1, st, pend, k, h => by
    simp only [pendingLoop]
    by_cases hp : (pendingPass st pend).2.2 = true
    · rw [if_pos hp]
      exact pendingLoop_obs_mono fuel _ _ k (pendingPass_obs_mono pend st k h)
    · rw [if_neg hp]
      exact pendingPass_obs_mono pend st k h

theorem consumePhase_completes :
    ∀ (ts : List ModelTask) (st : SchedCore) (t : ModelTask), t ∈ ts →
      (∀ d ∈ t.dependencies, (lookupObs st.obs d).isSome = true) →
      (lookupObs (consumePhase st ts).1.obs t.idx).isSome = true
  | [], _, _, hmem, _ => absurd hmem (by simp)
  | t0 :: rest, st, t, hmem, hdeps => by
    simp only [consumePhase]
    rcases List.mem_cons.mp hmem with he | hmem2
    · subst he
      rw [if_neg (by rw [not_deferred_of_deps_present hdeps]; simp)]
      apply consumePhase_obs_mono
      show (lookupObs (insertObs st.obs t.idx _) t.idx).isSome = true
      rw [lookupObs_insert_self]
      rfl
    · by_cases hdef : taskDeferred t0 st.obs = true
      · rw [if_pos hdef]
        exact consumePhase_completes rest _ t hmem2 hdeps
      · rw [if_neg hdef]
        exact consumePhase_completes rest _ t hmem2
          (fun d hd => lookupObs_insert_mono _ _ _ (hdeps d hd))

/-- C4: a failing tool invocation is recorded as a string beginning
with `ERROR:` instead of propagating, and a failure in one task does
not prevent independent sibling tasks (tasks whose dependencies are
already satisfied by the seed) from executing and completing with an
entry in the final table. -/
theorem failure_isolated (msgs : List Msg) (tasks : List ModelTask) :
    (∀ (t : ModelTask) (c : Cap) (obs : ObsTable) (e : String),
       t.tool = .cap c →
       c.invoke (t.args.map (fun kv => (kv.1, resolveArg kv.2 obs))) = .error e →
       executeTask t obs = .str ("ERROR: Failed to execute " ++ c.name ++ ". " ++ e) ∧
       ((match executeTask t obs with
         | .str s => s.data.take 6
         | _ => []) = "ERROR:".data)) ∧
    (∀ t ∈ tasks,
       (∀ d ∈ t.dependencies, (lookupObs (getObservations msgs) d).isSome = true) →
       (lookupObs (scheduleTasks msgs tasks).finalObs t.idx).isSome = true) := by
  constructor
  · intro t c obs e htool herr
    have hexec : executeTask t obs =
        .str ("ERROR: Failed to execute " ++ c.name ++ ". " ++ e) := by
      unfold executeTask
      rw [htool]
      dsimp only
      rw [herr]
    refine ⟨hexec, ?_⟩
    rw [hexec]
    show ("ERROR: Failed to execute " ++ c.name ++ ". " ++ e).data.take 6 = _
    rw [String.data_append, String.data_append, String.data_append,
      List.append_assoc, List.append_assoc]
    rw [List.take_append_of_le_length (by decide)]
    decide
  · intro t hmem hdeps
    show (lookupObs (schedAfter msgs tasks).1.obs t.idx).isSome = true
    unfold schedAfter
    apply pendingLoop_obs_mono
    exact consumePhase_completes tasks _ t hmem hdeps

/-- A closed instance of `failure_isolated`: the always-raising tool's
result is the `ERROR:` string, and its independent sibling still
completes. -/
theorem failure_isolated_witness :
    (executeTask ⟨1, .cap ⟨"boom", [], fun _ => .error "RuntimeError"⟩, [], [], Option.none⟩ [] =
        .str ("ERROR: Failed to execute " ++ "boom" ++ ". " ++ "RuntimeError") ∧
      ((match executeTask ⟨1, .cap ⟨"boom", [], fun _ => .error "RuntimeError"⟩, [], [], Option.none⟩ [] with
        | .str s => s.data.take 6
        | _ => []) = "ERROR:".data)) ∧
    (lookupObs (scheduleTasks []
        [⟨1, .cap ⟨"boom", [], fun _ => .error "RuntimeError"⟩, [], [], Option.none⟩,
          ⟨2, .cap ⟨"ok", [], fun _ => .ok (.str "fine")⟩, [], [], Option.none⟩]).finalObs 2).isSome = true := by
  constructor
  · exact (failure_isolated [] []).1
      ⟨1, .cap ⟨"boom", [], fun _ => .error "RuntimeError"⟩, [], [], Option.none⟩
      ⟨"boom", [], fun _ => .error "RuntimeError"⟩ [] "RuntimeError" rfl rfl
  · exact (failure_isolated []
        [⟨1, .cap ⟨"boom", [], fun _ => .error "RuntimeError"⟩, [], [], Option.none⟩,
          ⟨2, .cap ⟨"ok", [], fun _ => .ok (.str "fine")⟩, [], [], Option.none⟩]).2
      ⟨2, .cap ⟨"ok", [], fun _ => .ok (.str "fine")⟩, [], [], Option.none⟩
      (by simp)
      (by intro d hd; cases hd)

theorem lookupName_insert_self (l : List (Nat × String)) (k : Nat) (v : String) :
    lookupName (insertName l k v) k = some v := by
  induction l with
  | nil =>
    show (if k = k then some v else Option.none) = some v
    rw [if_pos rfl]
  | cons p rest ih =>
    obtain ⟨i, w⟩ := p
    show lookupName (if i = k then (i, v) :: rest else (i, w) :: insertName rest k v) k = some v
    by_cases hik : i = k
    · rw [if_pos hik]
      show (if i = k then some v else lookupName rest k) = some v
      rw [if_pos hik]
    · rw [if_neg hik]
      show (if i = k then some w else lookupName (insertName rest k v) k) = some v
      rw [if_neg hik]
      exact ih

theorem lookupName_insert_mono (l : List (Nat × String)) {k2 : Nat} (k : Nat) (v : String)
    (h : (lookupName l k2).isSome = true) :
    (lookupName (insertName l k v) k2).isSome = true := by
  induction l with
  | nil => simp [lookupName] at h
  | cons p rest ih =>
    obtain ⟨i, w⟩ := p
    show (lookupName (if i = k then (i, v) :: rest else (i, w) :: insertName rest k v) k2).isSome = true
    have h2 : (if i = k2 then some w else lookupName rest k2).isSome = true := h
    by_cases hik : i = k
    · rw [if_pos hik]
      show ((if i = k2 then some v else lookupName rest k2)).isSome = true
      by_cases hik2 : i = k2
      · rw [if_pos hik2]
        rfl
      · rw [if_neg hik2]
        rw [if_neg hik2] at h2
        exact h2
    · rw [if_neg hik]
      show ((if i = k2 then some w else lookupName (insertName rest k v) k2)).isSome = true
      by_cases hik2 : i = k2
      · rw [if_pos hik2]
        rfl
      · rw [if_neg hik2]
        rw [if_neg hik2] at h2
        exact ih h2

theorem insertName_mem_from {l : List (Nat × String)} {k : Nat} {v : String} :
    ∀ p ∈ insertName l k v, p = (k, v) ∨ p ∈ l := by
  induction l with
  | nil =>
    intro p hp
    simp only [insertName, List.mem_singleton] at hp
    exact Or.inl hp
  | cons q rest ih =>
    obtain ⟨i, w⟩ := q
    intro p hp
    show _ ∨ p ∈ (i, w) :: rest
    by_cases hik : i = k
    · rw [show insertName ((i, w) :: rest) k v = (i, v) :: rest by
        show (if i = k then (i, v) :: rest else _) = _
        rw [if_pos hik]] at hp
      rcases List.mem_cons.mp hp with h | h
      · subst hik
        exact Or.inl (by rw [h])
      · exact Or.inr (List.mem_cons_of_mem _ h)
    · rw [show insertName ((i, w) :: rest) k v = (i, w) :: insertName rest k v by
        show (if i = k then _ else (i, w) :: insertName rest k v) = _
        rw [if_neg hik]] at hp
      rcases List.mem_cons.mp hp with h | h
      · exact Or.inr (h ▸ List.mem_cons_self _ _)
      · rcases ih p h with h2 | h2
        · exact Or.inl h2
        · exact Or.inr (List.mem_cons_of_mem _ h2)

theorem lookupName_mem {l : List (Nat × String)} {k : Nat} {n : String}
    (h : lookupName l k = some n) : (k, n) ∈ l := by
  induction l with
  | nil => cases h
  | cons p rest ih =>
    obtain ⟨i, w⟩ := p
    have h2 : (if i = k then some w else lookupName rest k) = some n := h
    by_cases hik : i = k
    · rw [if_pos hik] at h2
      subst hik
      injection h2 with h3
      subst h3
      exact List.mem_cons_self _ _
    · rw [if_neg hik] at h2
      exact List.mem_cons_of_mem _ (ih h2)

theorem mem_keys_iff_isSome {obs : ObsTable} {k : Nat} :
    k ∈ obs.map (·.1) ↔ (lookupObs obs k).isSome = true := by
  induction obs with
  | nil => simp [lookupObs]
  | cons p rest ih =>
    obtain ⟨i, v⟩ := p
    show k ∈ i :: rest.map (·.1) ↔ ((if i = k then some v else lookupObs rest k)).isSome = true
    by_cases hik : i = k
    · rw [if_pos hik]
      subst hik
      simp
    · rw [if_neg hik]
      simp only [List.mem_cons]
      constructor
      · intro h
        rcases h with h | h
        · exact absurd h.symm hik
        · exact ih.mp h
      · intro h
        exact Or.inr (ih.mpr h)

theorem consumePhase_names_lookup_mono :
    ∀ (ts : List ModelTask) (st : SchedCore) (k : Nat),
      (lookupName st.names k).isSome = true →
      (lookupName (consumePhase st ts).1.names k).isSome = true
  | [], _, _, h => h
  | t :: rest, st, k, h => by
    simp only [consumePhase]
    by_cases hdef : taskDeferred t st.obs = true
    · rw [if_pos hdef]
      exact consumePhase_names_lookup_mono rest _ k (lookupName_insert_mono _ _ _ h)
    · rw [if_neg hdef]
      exact consumePhase_names_lookup_mono rest _ k (lookupName_insert_mono _ _ _ h)

theorem consumePhase_names_all :
    ∀ (ts : List ModelTask) (st : SchedCore), ∀ t ∈ ts,
      (lookupName (consumePhase st ts).1.names t.idx).isSome = true
  | [], _, t, hmem => absurd hmem (by simp)
  | t0 :: rest, st, t, hmem => by
    simp only [consumePhase]
    rcases List.mem_cons.mp hmem with he | hmem2
    · subst he
      by_cases hdef : taskDeferred t st.obs = true
      · rw [if_pos hdef]
        apply consumePhase_names_lookup_mono
        show (lookupName (insertName st.names t.idx (toolNameOf t)) t.idx).isSome = true
        rw [lookupName_insert_self]
        rfl
      · rw [if_neg hdef]
        apply consumePhase_names_lookup_mono
        show (lookupName (insertName st.names t.idx (toolNameOf t)) t.idx).isSome = true
        rw [lookupName_insert_self]
        rfl
    · by_cases hdef : taskDeferred t0 st.obs = true
      · rw [if_pos hdef]
        exact consumePhase_names_all rest _ t hmem2
      · rw [if_neg hdef]
        exact consumePhase_names_all rest _ t hmem2

theorem consumePhase_names_from :
    ∀ (ts : List ModelTask) (st : SchedCore), ∀ p ∈ (consumePhase st ts).1.names,
      p ∈ st.names ∨ ∃ t ∈ ts, t.idx = p.1 ∧ p.2 = toolNameOf t
  | [], _, p, hp => Or.inl hp
  | t0 :: rest, st, p, hp => by
    have hstep : ∀ (st2 : SchedCore), st2.names = insertName st.names t0.idx (toolNameOf t0) →
        p ∈ (consumePhase st2 rest).1.names →
        p ∈ st.names ∨ ∃ t ∈ t0 :: rest, t.idx = p.1 ∧ p.2 = toolNameOf t := by
      intro st2 hnames hp2
      rcases consumePhase_names_from rest st2 p hp2 with h | ⟨t, ht, h1, h2⟩
      · rw [hnames] at h
        rcases insertName_mem_from p h with h2 | h2
        · exact Or.inr ⟨t0, List.mem_cons_self _ _, by rw [h2], by rw [h2]⟩
        · exact Or.inl h2
      · exact Or.inr ⟨t, List.mem_cons_of_mem _ ht, h1, h2⟩
    revert hp
    simp only [consumePhase]
    by_cases hdef : taskDeferred t0 st.obs = true
    · rw [if_pos hdef]
      exact hstep _ rfl
    · rw [if_neg hdef]
      exact hstep _ rfl

theorem consumePhase_pend_sub :
    ∀ (ts : List ModelTask) (st : SchedCore), ∀ t ∈ (consumePhase st ts).2, t ∈ ts
  | [], _, t, hmem => absurd hmem (List.not_mem_nil t)
  | t0 :: rest, st, t, hmem => by
    revert hmem
    simp only [consumePhase]
    by_cases hdef : taskDeferred t0 st.obs = true
    · rw [if_pos hdef]
      intro hmem
      rcases List.mem_cons.mp hmem with h | h
      · exact h ▸ List.mem_cons_self _ _
      · exact List.mem_cons_of_mem _ (consumePhase_pend_sub rest _ t h)
    · rw [if_neg hdef]
      intro hmem
      exact List.mem_cons_of_mem _ (consumePhase_pend_sub rest _ t hmem)

theorem consumePhase_cover :
    ∀ (ts : List ModelTask) (st : SchedCore) (k : Nat),
      (lookupObs (consumePhase st ts).1.obs k).isSome = true →
      (lookupObs st.obs k).isSome = true ∨
        (lookupName (consumePhase st ts).1.names k).isSome = true
  | [], _, _, h => Or.inl h
  | t :: rest, st, k, h => by
    revert h
    simp only [consumePhase]
    by_cases hdef : taskDeferred t st.obs = true
    · rw [if_pos hdef]
      intro h
      exact consumePhase_cover rest _ k h
    · rw [if_neg hdef]
      intro h
      rcases consumePhase_cover rest _ k h with h2 | h2
      · by_cases hik : k = t.idx
        · right
          apply consumePhase_names_lookup_mono
          rw [hik]
          show (lookupName (insertName st.names t.idx (toolNameOf t)) t.idx).isSome = true
          rw [lookupName_insert_self]
          rfl
        · left
          show (lookupObs st.obs k).isSome = true
          have : lookupObs (insertObs st.obs t.idx (executeTask t st.obs)) k =
              lookupObs st.obs k := lookupObs_insert_ne _ _ hik
          rw [← this]
          exact h2
      · exact Or.inr h2

theorem pendingPass_names_eq :
    ∀ (pend : List ModelTask) (st : SchedCore), (pendingPass st pend).1.names = st.names
  | [], _ => rfl
  | t :: rest, st => by
    simp only [pendingPass]
    by_cases hdef : taskDeferred t st.obs = true
    · rw [if_pos hdef]
      exact pendingPass_names_eq rest st
    · rw [if_neg hdef]
      exact pendingPass_names_eq rest _

theorem pendingLoop_names_eq :
    ∀ (fuel : Nat) (st : SchedCore) (pend : List ModelTask),
      (pendingLoop fuel st pend).1.names = st.names
  | 0, _, _ => rfl
  | fuel + 1, st, pend => by
    simp only [pendingLoop]
    by_cases hp : (pendingPass st pend).2.2 = true
    · rw [if_pos hp]
      rw [pendingLoop_names_eq fuel _ _]
      exact pendingPass_names_eq pend st
    · rw [if_neg hp]
      exact pendingPass_names_eq pend st

theorem pendingPass_pend_sub :
    ∀ (pend : List ModelTask) (st : SchedCore), ∀ t ∈ (pendingPass st pend).2.1, t ∈ pend
  | [], _, t, hmem => absurd hmem (List.not_mem_nil t)
  | t0 :: rest, st, t, hmem => by
    revert hmem
    simp only [pendingPass]
    by_cases hdef : taskDeferred t0 st.obs = true
    · rw [if_pos hdef]
      intro hmem
      rcases List.mem_cons.mp hmem with h | h
      · exact h ▸ List.mem_cons_self _ _
      · exact List.mem_cons_of_mem _ (pendingPass_pend_sub rest _ t h)
    · rw [if_neg hdef]
      intro hmem
      exact List.mem_cons_of_mem _ (pendingPass_pend_sub rest _ t hmem)

theorem pendingPass_cover :
    ∀ (pend : List ModelTask) (st : SchedCore) (k : Nat),
      (lookupObs (pendingPass st pend).1.obs k).isSome = true →
      (lookupObs st.obs k).isSome = true ∨ ∃ t ∈ pend, t.idx = k
  | [], _, _, h => Or.inl h
  | t :: rest, st, k, h => by
    revert h
    simp only [pendingPass]
    by_cases hdef : taskDeferred t st.obs = true
    · rw [if_pos hdef]
      intro h
      rcases pendingPass_cover rest _ k h with h2 | ⟨t2, ht2, h3⟩
      · exact Or.inl h2
      · exact Or.inr ⟨t2, List.mem_cons_of_mem _ ht2, h3⟩
    · rw [if_neg hdef]
      intro h
      rcases pendingPass_cover rest _ k h with h2 | ⟨t2, ht2, h3⟩
      · by_cases hik : k = t.idx
        · exact Or.inr ⟨t, List.mem_cons_self _ _, hik.symm⟩
        · left
          show (lookupObs st.obs k).isSome = true
          have : lookupObs (insertObs st.obs t.idx (executeTask t st.obs)) k =
              lookupObs st.obs k := lookupObs_insert_ne _ _ hik
          rw [← this]
          exact h2
      · exact Or.inr ⟨t2, List.mem_cons_of_mem _ ht2, h3⟩

theorem pendingLoop_cover :
    ∀ (fuel : Nat) (st : SchedCore) (pend : List ModelTask) (k : Nat),
      (lookupObs (pendingLoop fuel st pend).1.obs k).isSome = true →
      (lookupObs st.obs k).isSome = true ∨ ∃ t ∈ pend, t.idx = k
  | 0, _, _, _, h => Or.inl h
  | fuel + 1, st, pend, k, h => by
    revert h
    simp only [pendingLoop]
    by_cases hp : (pendingPass st pend).2.2 = true
    · rw [if_pos hp]
      intro h
      rcases pendingLoop_cover fuel _ _ k h with h2 | ⟨t2, ht2, h3⟩
      · exact pendingPass_cover pend st k h2
      · exact Or.inr ⟨t2, pendingPass_pend_sub pend st t2 ht2, h3⟩
    · rw [if_neg hp]
      intro h
      exact pendingPass_cover pend st k h

theorem isNone_iff_not_isSome {α : Type} (o : Option α) :
    o.isNone = true ↔ ¬ (o.isSome = true) := by
  cases o <;> simp

theorem mem_newKeysOf_iff (msgs : List Msg) (tasks : List ModelTask) (k : Nat) :
    k ∈ newKeysOf msgs tasks ↔
      ((lookupObs (schedAfter msgs tasks).1.obs k).isSome = true ∧
        (lookupObs (getObservations msgs) k).isNone = true) := by
  unfold newKeysOf
  rw [mem_sortedDedup, List.mem_filter]
  constructor
  · intro ⟨h1, h2⟩
    refine ⟨mem_keys_iff_isSome.mp h1, ?_⟩
    rw [isNone_iff_not_isSome]
    intro hs
    have hmem := mem_keys_iff_isSome.mpr hs
    have := List.elem_iff.mpr hmem
    rw [show ((getObservations msgs).map (·.1)).contains k =
        List.elem k ((getObservations msgs).map (·.1)) from rfl] at h2
    rw [this] at h2
    cases h2
  · intro ⟨h1, h2⟩
    refine ⟨mem_keys_iff_isSome.mpr h1, ?_⟩
    rw [show ((getObservations msgs).map (·.1)).contains k =
        List.elem k ((getObservations msgs).map (·.1)) from rfl]
    rw [isNone_iff_not_isSome] at h2
    cases helem : List.elem k ((getObservations msgs).map (·.1)) with
    | true =>
      exact absurd (mem_keys_iff_isSome.mp (List.elem_iff.mp helem)) h2
    | false => rfl

/-- C2: in a scheduling pass that terminates, `schedule_tasks` returns
exactly one record per observation-table key that was absent before
the pass (the record ids are exactly the new keys and they are
strictly ascending), every seeded id is excluded, and each record
carries a consumed task's resolved tool name for its id and the
stringified observation as content. -/
theorem scheduler_records_spec (msgs : List Msg) (tasks : List ModelTask)
    (hterm : (scheduleTasks msgs tasks).stuck = []) :
    (∀ k, k ∈ (scheduleTasks msgs tasks).records.map (·.idx) ↔
       ((lookupObs (scheduleTasks msgs tasks).finalObs k).isSome = true ∧
         (lookupObs (getObservations msgs) k).isNone = true)) ∧
    List.Chain' (· < ·) ((scheduleTasks msgs tasks).records.map (·.idx)) ∧
    (∀ r ∈ (scheduleTasks msgs tasks).records,
       (lookupObs (getObservations msgs) r.idx).isNone = true ∧
       (∃ t ∈ tasks, t.idx = r.idx ∧ r.name = toolNameOf t) ∧
       (∃ v, lookupObs (scheduleTasks msgs tasks).finalObs r.idx = some v ∧
         r.content = String.mk (pyStr v))) := by
  clear hterm
  have hid : ∀ (l : List Nat), l.map (fun a => a) = l := by
    intro l
    induction l with
    | nil => rfl
    | cons a l ih => rw [List.map_cons, ih]
  have hmap : (scheduleTasks msgs tasks).records.map (·.idx) = newKeysOf msgs tasks := by
    show ((newKeysOf msgs tasks).map (fun i =>
        ({ name := (lookupName (schedAfter msgs tasks).1.names i).getD "",
           content := String.mk (pyStr ((lookupObs (schedAfter msgs tasks).1.obs i).getD Value.none)),
           idx := i, toolCallId := String.mk (natDigits i) } : OutMsg))).map
        (fun r : OutMsg => r.idx) = newKeysOf msgs tasks
    rw [List.map_map]
    exact hid _
  have hnames : ∀ (i : Nat), (lookupObs (schedAfter msgs tasks).1.obs i).isSome = true →
      (lookupObs (getObservations msgs) i).isNone = true →
      ∃ t ∈ tasks, t.idx = i ∧
        lookupName (schedAfter msgs tasks).1.names i = some (toolNameOf t) := by
    intro i hfin hseed
    have hnamed : (lookupName (schedAfter msgs tasks).1.names i).isSome = true := by
      unfold schedAfter at hfin ⊢
      rcases pendingLoop_cover _ _ _ i hfin with h1 | ⟨t, ht, hidx⟩
      · rcases consumePhase_cover tasks _ i h1 with h2 | h2
        · exfalso
          rw [isNone_iff_not_isSome] at hseed
          exact hseed h2
        · rw [pendingLoop_names_eq]
          exact h2
      · rw [pendingLoop_names_eq]
        subst hidx
        exact consumePhase_names_all tasks _ t (consumePhase_pend_sub tasks _ t ht)
    obtain ⟨nm, hnm⟩ := Option.isSome_iff_exists.mp hnamed
    have hpair : (i, nm) ∈ (schedAfter msgs tasks).1.names := lookupName_mem hnm
    have hpair2 : (i, nm) ∈ (consumePhase ⟨getObservations msgs, [], []⟩ tasks).1.names := by
      unfold schedAfter at hpair
      rw [pendingLoop_names_eq] at hpair
      exact hpair
    rcases consumePhase_names_from tasks _ (i, nm) hpair2 with h | ⟨t, ht, h1, h2⟩
    · cases h
    · exact ⟨t, ht, h1, by rw [hnm]; exact congrArg some h2⟩
  refine ⟨?_, ?_, ?_⟩
  · intro k
    rw [hmap, mem_newKeysOf_iff]
    exact Iff.rfl
  · rw [hmap]
    exact sortedDedup_chain _
  · intro r hr
    obtain ⟨i, hi, hreq⟩ := List.mem_map.mp hr
    obtain ⟨hfin, hseed⟩ := (mem_newKeysOf_iff msgs tasks i).mp hi
    obtain ⟨t, ht, hidx, hnm⟩ := hnames i hfin hseed
    obtain ⟨v, hv⟩ := Option.isSome_iff_exists.mp hfin
    subst hreq
    refine ⟨hseed, ⟨t, ht, hidx, ?_⟩, ⟨v, hv, ?_⟩⟩
    · show (lookupName (schedAfter msgs tasks).1.names i).getD "" = toolNameOf t
      rw [hnm]
      rfl
    · show String.mk (pyStr ((lookupObs (schedAfter msgs tasks).1.obs i).getD Value.none)) = _
      rw [hv]
      rfl

/-- A fixed sibling-free task for the closed scheduler instances. -/
def okTask : ModelTask :=
  ⟨1, .cap ⟨"ok", [], fun _ => Except.ok (Value.str "fine")⟩, [], [], Option.none⟩

/-- A closed instance of `scheduler_records_spec` on a one-task pass. -/
theorem scheduler_records_spec_witness :
    (∀ k, k ∈ (scheduleTasks [] [okTask]).records.map (·.idx) ↔
       ((lookupObs (scheduleTasks [] [okTask]).finalObs k).isSome = true ∧
         (lookupObs (getObservations []) k).isNone = true)) ∧
    List.Chain' (· < ·) ((scheduleTasks [] [okTask]).records.map (·.idx)) ∧
    (∀ r ∈ (scheduleTasks [] [okTask]).records,
       (lookupObs (getObservations []) r.idx).isNone = true ∧
       (∃ t ∈ [okTask], t.idx = r.idx ∧ r.name = toolNameOf t) ∧
       (∃ v, lookupObs (scheduleTasks [] [okTask]).finalObs r.idx = some v ∧
         r.content = String.mk (pyStr v))) :=
  scheduler_records_spec [] [okTask] rfl

/-- Every recorded write is still the value under its key: no later
write has touched it. -/
def TraceFresh (st : SchedCore) : Prop :=
  ∀ e ∈ st.trace, lookupObs st.obs e.task.idx = some e.written

/-- The ids of the given tasks have not been written by any executed
task yet. -/
def idxFresh (st : SchedCore) (ts : List ModelTask) : Prop :=
  ∀ t ∈ ts, t.idx ∉ st.trace.map (fun e => e.task.idx)

theorem runTask_traceFresh {st : SchedCore} {t : ModelTask}
    (hP : TraceFresh st) (hfresh : t.idx ∉ st.trace.map (fun e => e.task.idx)) :
    TraceFresh (runTask st t) := by
  intro e he
  rcases List.mem_append.mp he with h | h
  · have hne : e.task.idx ≠ t.idx := by
      intro heq
      exact hfresh (heq ▸ List.mem_map_of_mem _ h)
    show lookupObs (insertObs st.obs t.idx (executeTask t st.obs)) e.task.idx = some e.written
    rw [lookupObs_insert_ne _ _ hne]
    exact hP e h
  · simp only [List.mem_singleton] at h
    subst h
    show lookupObs (insertObs st.obs t.idx (executeTask t st.obs)) t.idx = _
    rw [lookupObs_insert_self]

theorem nodup_snoc {l : List Nat} {x : Nat} (h : l.Nodup) (hx : x ∉ l) :
    (l ++ [x]).Nodup := by
  rw [List.nodup_append]
  refine ⟨h, List.nodup_singleton x, ?_⟩
  intro a ha hax
  simp only [List.mem_singleton] at hax
  subst hax
  exact hx ha

theorem consumePhase_c8 :
    ∀ (ts : List ModelTask) (st : SchedCore),
      TraceFresh st →
      (st.trace.map (fun e => e.task.idx)).Nodup →
      (ts.map (·.idx)).Nodup →
      idxFresh st ts →
      TraceFresh (consumePhase st ts).1 ∧
      ((consumePhase st ts).1.trace.map (fun e => e.task.idx)).Nodup ∧
      ((consumePhase st ts).2.map (·.idx)).Nodup ∧
      idxFresh (consumePhase st ts).1 (consumePhase st ts).2 ∧
      (∀ k, k ∈ (consumePhase st ts).1.trace.map (fun e => e.task.idx) →
        k ∈ st.trace.map (fun e => e.task.idx) ∨ k ∈ ts.map (·.idx)) ∧
      (∀ k, k ∉ ts.map (·.idx) →
        lookupObs (consumePhase st ts).1.obs k = lookupObs st.obs k)
  | [], st, hP, hndT, _, _ =>
    ⟨hP, hndT, List.nodup_nil, fun t ht => absurd ht (List.not_mem_nil t),
      fun _ hk => Or.inl hk, fun _ _ => rfl⟩
  | t :: rest, st, hP, hndT, hndL, hfr => by
    have hhead : t.idx ∉ st.trace.map (fun e => e.task.idx) :=
      hfr t (List.mem_cons_self t rest)
    have htail : (rest.map (·.idx)).Nodup := (List.nodup_cons.mp hndL).2
    have hnotin : t.idx ∉ rest.map (·.idx) := (List.nodup_cons.mp hndL).1
    simp only [consumePhase]
    by_cases hdef : taskDeferred t st.obs = true
    · rw [if_pos hdef]
      have ih := consumePhase_c8 rest
        { st with names := insertName st.names t.idx (toolNameOf t) }
        hP hndT htail (fun t2 ht2 => hfr t2 (List.mem_cons_of_mem t ht2))
      obtain ⟨ih1, ih2, ih3, ih4, ih5, ih6⟩ := ih
      refine ⟨ih1, ih2, ?_, ?_, ?_, ?_⟩
      · rw [List.map_cons]
        apply List.nodup_cons.mpr
        refine ⟨?_, ih3⟩
        intro hmem
        obtain ⟨t2, ht2, hidx⟩ := List.mem_map.mp hmem
        have h3 : t2.idx ∈ rest.map (·.idx) :=
          List.mem_map_of_mem (·.idx) (consumePhase_pend_sub rest _ t2 ht2)
        rw [show t2.idx = t.idx from hidx] at h3
        exact hnotin h3
      · intro t2 ht2
        rcases List.mem_cons.mp ht2 with he | hm
        · subst he
          intro hmem
          rcases ih5 _ hmem with h | h
          · exact hhead h
          · exact hnotin h
        · exact ih4 t2 hm
      · intro k hk
        rcases ih5 k hk with h | h
        · exact Or.inl h
        · exact Or.inr (by rw [List.map_cons]; exact List.mem_cons_of_mem _ h)
      · intro k hk
        have hk2 : k ∉ rest.map (·.idx) := by
          intro hm
          exact hk (by rw [List.map_cons]; exact List.mem_cons_of_mem _ hm)
        exact ih6 k hk2
    · rw [if_neg hdef]
      have hP2 : TraceFresh (runTask
          { st with names := insertName st.names t.idx (toolNameOf t) } t) :=
        runTask_traceFresh hP hhead
      have hndT2 : ((runTask { st with names := insertName st.names t.idx (toolNameOf t) } t).trace.map
          (fun e => e.task.idx)).Nodup := by
        show ((st.trace ++ [(⟨t, st.obs, executeTask t st.obs⟩ : TraceEntry)]).map (fun e => e.task.idx)).Nodup
        rw [List.map_append]
        exact nodup_snoc hndT hhead
      have hfr2 : idxFresh (runTask
          { st with names := insertName st.names t.idx (toolNameOf t) } t) rest := by
        intro t2 ht2
        show t2.idx ∉ (st.trace ++ [(⟨t, st.obs, executeTask t st.obs⟩ : TraceEntry)]).map (fun e => e.task.idx)
        rw [List.map_append]
        intro hmem
        rcases List.mem_append.mp hmem with h | h
        · exact hfr t2 (List.mem_cons_of_mem t ht2) h
        · simp only [List.map_cons, List.map_nil, List.mem_singleton] at h
          exact hnotin (h ▸ List.mem_map_of_mem (·.idx) ht2)
      have ih := consumePhase_c8 rest _ hP2 hndT2 htail hfr2
      obtain ⟨ih1, ih2, ih3, ih4, ih5, ih6⟩ := ih
      refine ⟨ih1, ih2, ih3, ih4, ?_, ?_⟩
      · intro k hk
        rcases ih5 k hk with h | h
        · rw [show (runTask { st with names := insertName st.names t.idx (toolNameOf t) } t).trace =
              st.trace ++ [(⟨t, st.obs, executeTask t st.obs⟩ : TraceEntry)] from rfl, List.map_append] at h
          rcases List.mem_append.mp h with h2 | h2
          · exact Or.inl h2
          · simp only [List.map_cons, List.map_nil, List.mem_singleton] at h2
            exact Or.inr (by rw [List.map_cons, h2]; exact List.mem_cons_self _ _)
        · exact Or.inr (by rw [List.map_cons]; exact List.mem_cons_of_mem _ h)
      · intro k hk
        have hkt : k ≠ t.idx := by
          intro he
          exact hk (by rw [List.map_cons, he]; exact List.mem_cons_self _ _)
        have hk2 : k ∉ rest.map (·.idx) := by
          intro hm
          exact hk (by rw [List.map_cons]; exact List.mem_cons_of_mem _ hm)
        rw [ih6 k hk2]
        show lookupObs (insertObs st.obs t.idx (executeTask t st.obs)) k = _
        exact lookupObs_insert_ne _ _ hkt

theorem pendingPass_trace_sub :
    ∀ (pend : List ModelTask) (st : SchedCore),
      ∀ k ∈ (pendingPass st pend).1.trace.map (fun e => e.task.idx),
        k ∈ st.trace.map (fun e => e.task.idx) ∨ k ∈ pend.map (·.idx)
  | [], _, _, hk => Or.inl hk
  | t :: rest, st, k, hk => by
    revert hk
    simp only [pendingPass]
    by_cases hdef : taskDeferred t st.obs = true
    · rw [if_pos hdef]
      intro hk
      rcases pendingPass_trace_sub rest st k hk with h | h
      · exact Or.inl h
      · exact Or.inr (by rw [List.map_cons]; exact List.mem_cons_of_mem _ h)
    · rw [if_neg hdef]
      intro hk
      rcases pendingPass_trace_sub rest (runTask st t) k hk with h | h
      · rw [show (runTask st t).trace = st.trace ++ [(⟨t, st.obs, executeTask t st.obs⟩ : TraceEntry)] from rfl,
          List.map_append] at h
        rcases List.mem_append.mp h with h2 | h2
        · exact Or.inl h2
        · simp only [List.map_cons, List.map_nil, List.mem_singleton] at h2
          exact Or.inr (by rw [List.map_cons, h2]; exact List.mem_cons_self _ _)
      · exact Or.inr (by rw [List.map_cons]; exact List.mem_cons_of_mem _ h)

theorem pendingPass_c8 :
    ∀ (pend : List ModelTask) (st : SchedCore),
      TraceFresh st →
      (st.trace.map (fun e => e.task.idx)).Nodup →
      (pend.map (·.idx)).Nodup →
      idxFresh st pend →
      TraceFresh (pendingPass st pend).1 ∧
      ((pendingPass st pend).1.trace.map (fun e => e.task.idx)).Nodup ∧
      ((pendingPass st pend).2.1.map (·.idx)).Nodup ∧
      idxFresh (pendingPass st pend).1 (pendingPass st pend).2.1 ∧
      (∀ k, k ∉ pend.map (·.idx) →
        lookupObs (pendingPass st pend).1.obs k = lookupObs st.obs k)
  | [], st, hP, hndT, _, _ =>
    ⟨hP, hndT, List.nodup_nil, fun t ht => absurd ht (List.not_mem_nil t), fun _ _ => rfl⟩
  | t :: rest, st, hP, hndT, hndL, hfr => by
    have hhead : t.idx ∉ st.trace.map (fun e => e.task.idx) :=
      hfr t (List.mem_cons_self t rest)
    have htail : (rest.map (·.idx)).Nodup := (List.nodup_cons.mp hndL).2
    have hnotin : t.idx ∉ rest.map (·.idx) := (List.nodup_cons.mp hndL).1
    simp only [pendingPass]
    by_cases hdef : taskDeferred t st.obs = true
    · rw [if_pos hdef]
      have ih := pendingPass_c8 rest st hP hndT htail
        (fun t2 ht2 => hfr t2 (List.mem_cons_of_mem t ht2))
      obtain ⟨ih1, ih2, ih3, ih4, ih5⟩ := ih
      refine ⟨ih1, ih2, ?_, ?_, ?_⟩
      · rw [List.map_cons]
        apply List.nodup_cons.mpr
        refine ⟨?_, ih3⟩
        intro hmem
        obtain ⟨t2, ht2, hidx⟩ := List.mem_map.mp hmem
        have h3 : t2.idx ∈ rest.map (·.idx) :=
          List.mem_map_of_mem (·.idx) (pendingPass_pend_sub rest _ t2 ht2)
        rw [show t2.idx = t.idx from hidx] at h3
        exact hnotin h3
      · intro t2 ht2
        rcases List.mem_cons.mp ht2 with he | hm
        · subst he
          intro hmem
          -- trace of the pass result only adds ids from rest
          have hts : ∀ k, k ∈ (pendingPass st rest).1.trace.map (fun e => e.task.idx) →
              k ∈ st.trace.map (fun e => e.task.idx) ∨ k ∈ rest.map (·.idx) :=
            pendingPass_trace_sub rest st
          rcases hts _ hmem with h | h
          · exact hhead h
          · exact hnotin h
        · exact ih4 t2 hm
      · intro k hk
        have hk2 : k ∉ rest.map (·.idx) := by
          intro hm
          exact hk (by rw [List.map_cons]; exact List.mem_cons_of_mem _ hm)
        exact ih5 k hk2
    · rw [if_neg hdef]
      have hP2 : TraceFresh (runTask st t) := runTask_traceFresh hP hhead
      have hndT2 : ((runTask st t).trace.map (fun e => e.task.idx)).Nodup := by
        show ((st.trace ++ [(⟨t, st.obs, executeTask t st.obs⟩ : TraceEntry)]).map (fun e => e.task.idx)).Nodup
        rw [List.map_append]
        exact nodup_snoc hndT hhead
      have hfr2 : idxFresh (runTask st t) rest := by
        intro t2 ht2
        show t2.idx ∉ (st.trace ++ [(⟨t, st.obs, executeTask t st.obs⟩ : TraceEntry)]).map (fun e => e.task.idx)
        rw [List.map_append]
        intro hmem
        rcases List.mem_append.mp hmem with h | h
        · exact hfr t2 (List.mem_cons_of_mem t ht2) h
        · simp only [List.map_cons, List.map_nil, List.mem_singleton] at h
          exact hnotin (h ▸ List.mem_map_of_mem (·.idx) ht2)
      have ih := pendingPass_c8 rest _ hP2 hndT2 htail hfr2
      obtain ⟨ih1, ih2, ih3, ih4, ih5⟩ := ih
      refine ⟨ih1, ih2, ih3, ih4, ?_⟩
      · intro k hk
        have hkt : k ≠ t.idx := by
          intro he
          exact hk (by rw [List.map_cons, he]; exact List.mem_cons_self _ _)
        have hk2 : k ∉ rest.map (·.idx) := by
          intro hm
          exact hk (by rw [List.map_cons]; exact List.mem_cons_of_mem _ hm)
        rw [ih5 k hk2]
        show lookupObs (insertObs st.obs t.idx (executeTask t st.obs)) k = _
        exact lookupObs_insert_ne _ _ hkt

theorem pendingLoop_c8 :
    ∀ (fuel : Nat) (st : SchedCore) (pend : List ModelTask),
      TraceFresh st →
      (st.trace.map (fun e => e.task.idx)).Nodup →
      (pend.map (·.idx)).Nodup →
      idxFresh st pend →
      TraceFresh (pendingLoop fuel st pend).1 ∧
      ((pendingLoop fuel st pend).1.trace.map (fun e => e.task.idx)).Nodup ∧
      (∀ k, k ∉ pend.map (·.idx) →
        lookupObs (pendingLoop fuel st pend).1.obs k = lookupObs st.obs k)
  | 0, _, _, hP, hndT, _, _ => ⟨hP, hndT, fun _ _ => rfl⟩
  | fuel + 1, st, pend, hP, hndT, hndL, hfr => by
    obtain ⟨p1, p2, p3, p4, p5⟩ := pendingPass_c8 pend st hP hndT hndL hfr
    simp only [pendingLoop]
    by_cases hp : (pendingPass st pend).2.2 = true
    · rw [if_pos hp]
      obtain ⟨i1, i2, i3⟩ :=
        pendingLoop_c8 fuel (pendingPass st pend).1 (pendingPass st pend).2.1 p1 p2 p3 p4
      refine ⟨i1, i2, ?_⟩
      intro k hk
      have hk2 : k ∉ (pendingPass st pend).2.1.map (·.idx) := by
        intro hm
        obtain ⟨t2, ht2, hidx⟩ := List.mem_map.mp hm
        exact hk (hidx ▸ List.mem_map_of_mem (·.idx) (pendingPass_pend_sub pend st t2 ht2))
      rw [i3 k hk2]
      exact p5 k hk
    · rw [if_neg hp]
      exact ⟨p1, p2, p5⟩

/-- Two tasks that share id 1 but are otherwise independent: the second
write lands on the first one's key. -/
def dupA : ModelTask :=
  ⟨1, .cap ⟨"first", [], fun _ => Except.ok (Value.str "ra")⟩, [], [], Option.none⟩

def dupB : ModelTask :=
  ⟨1, .cap ⟨"second", [], fun _ => Except.ok (Value.str "rb")⟩, [], [], Option.none⟩

/-- C8 (counterexample): as stated the claim is false.  When two
consumed tasks carry the same id, `schedule_task` writes
`observations[task[idx]]` twice: the key is written a second time
(the executed-task ids are not pairwise distinct) and the first task's
recorded result is overwritten, so the conjunction of
once-per-id writes, no overwrites, and seed preservation fails. -/
theorem observation_overwrite_counterexample :
    ¬ (((scheduleTasks [] [dupA, dupB]).trace.map (fun e => e.task.idx)).Nodup ∧
       (∀ e ∈ (scheduleTasks [] [dupA, dupB]).trace,
         lookupObs (scheduleTasks [] [dupA, dupB]).finalObs e.task.idx = some e.written) ∧
       (∀ k v, lookupObs (getObservations []) k = some v →
         lookupObs (scheduleTasks [] [dupA, dupB]).finalObs k = some v)) :=
  fun h => absurd h.1 (by decide)

/-- C8 (amended): provided the consumed tasks have pairwise-distinct
ids, none of which is already seeded in the observation table, one
scheduling pass is monotone: no id is executed twice (the trace ids
are pairwise distinct), no write is overwritten (each trace entry's
written value is still the final value under its id), and every seeded
entry survives into the final table unchanged. -/
theorem observation_table_monotone (msgs : List Msg) (tasks : List ModelTask)
    (h1 : (tasks.map (·.idx)).Nodup)
    (h2 : ∀ i ∈ tasks.map (·.idx), (lookupObs (getObservations msgs) i).isNone = true) :
    ((scheduleTasks msgs tasks).trace.map (fun e => e.task.idx)).Nodup ∧
    (∀ e ∈ (scheduleTasks msgs tasks).trace,
      lookupObs (scheduleTasks msgs tasks).finalObs e.task.idx = some e.written) ∧
    (∀ k v, lookupObs (getObservations msgs) k = some v →
      lookupObs (scheduleTasks msgs tasks).finalObs k = some v) := by
  obtain ⟨c1, c2, c3, c4, c5, c6⟩ := consumePhase_c8 tasks ⟨getObservations msgs, [], []⟩
    (fun e he => absurd he (List.not_mem_nil e))
    List.nodup_nil
    h1
    (fun t _ hm => absurd hm (List.not_mem_nil t.idx))
  obtain ⟨l1, l2, l3⟩ :=
    pendingLoop_c8 ((consumePhase ⟨getObservations msgs, [], []⟩ tasks).2.length + 1)
      (consumePhase ⟨getObservations msgs, [], []⟩ tasks).1
      (consumePhase ⟨getObservations msgs, [], []⟩ tasks).2 c1 c2 c3 c4
  refine ⟨l2, fun e he => l1 e he, ?_⟩
  intro k v hv
  have hkn : k ∉ tasks.map (·.idx) := by
    intro hm
    have hn := h2 k hm
    rw [hv] at hn
    simp at hn
  have hk2 : k ∉ (consumePhase ⟨getObservations msgs, [], []⟩ tasks).2.map (·.idx) := by
    intro hm
    obtain ⟨t2, ht2, hidx⟩ := List.mem_map.mp hm
    exact hkn (hidx ▸ List.mem_map_of_mem (·.idx) (consumePhase_pend_sub tasks _ t2 ht2))
  show lookupObs (schedAfter msgs tasks).1.obs k = some v
  unfold schedAfter
  rw [l3 k hk2, c6 k hkn]
  exact hv

def neA : ModelTask :=
  ⟨1, .cap ⟨"na", [], fun _ => Except.ok (Value.str "va")⟩, [], [], Option.none⟩

def neB : ModelTask :=
  ⟨2, .cap ⟨"nb", [], fun _ => Except.ok (Value.str "vb")⟩, [], [1], Option.none⟩

/-- A closed instance of `no_early_execution`: in a pass where the
second task depends on the first, the trace entry that ran the second
task already had id 1 in its observation table. -/
theorem no_early_execution_witness :
    ((⟨neB, [(1, Value.str "va")], Value.str "vb"⟩ : TraceEntry) ∈
      (scheduleTasks [] [neA, neB]).trace) ∧
    (lookupObs [(1, Value.str "va")] 1).isSome = true := by
  have hmem : (⟨neB, [(1, Value.str "va")], Value.str "vb"⟩ : TraceEntry) ∈
      (scheduleTasks [] [neA, neB]).trace := by
    rw [show (scheduleTasks [] [neA, neB]).trace =
        [⟨neA, [], Value.str "va"⟩, ⟨neB, [(1, Value.str "va")], Value.str "vb"⟩] from rfl]
    exact List.mem_cons_of_mem _ (List.mem_cons_self _ _)
  exact ⟨hmem,
    no_early_execution [] [neA, neB] ⟨neB, [(1, Value.str "va")], Value.str "vb"⟩ hmem 1
      (by decide)⟩

def wtA : ModelTask :=
  ⟨1, .cap ⟨"wa", [], fun _ => Except.ok (Value.str "ra")⟩, [], [], Option.none⟩

def wtB : ModelTask :=
  ⟨2, .cap ⟨"wb", [], fun _ => Except.ok (Value.str "rb")⟩, [], [1], Option.none⟩

/-- A closed instance of `observation_table_monotone` on a fresh
two-task pass where the second task depends on the first. -/
theorem observation_table_monotone_witness :
    (([wtA, wtB].map (·.idx)).Nodup ∧
      (∀ i ∈ [wtA, wtB].map (·.idx), (lookupObs (getObservations []) i).isNone = true)) ∧
    ((scheduleTasks [] [wtA, wtB]).trace.map (fun e => e.task.idx)).Nodup ∧
    (∀ e ∈ (scheduleTasks [] [wtA, wtB]).trace,
      lookupObs (scheduleTasks [] [wtA, wtB]).finalObs e.task.idx = some e.written) ∧
    (∀ k v, lookupObs (getObservations []) k = some v →
      lookupObs (scheduleTasks [] [wtA, wtB]).finalObs k = some v) :=
  ⟨⟨by decide, by decide⟩, observation_table_monotone [] [wtA, wtB] (by decide) (by decide)⟩

end Cenotium
